import Mathlib

/-!
Verification of the component-resolution engine of the atopile repository
(`src/faebryk/libs/picker/picker.py`) against its natural-language
specification.  The Python source is shallowly embedded below: modules and
parameters are identified by natural numbers, the solver and the parts
catalog appear as explicit oracle functions, exceptions become `Except`
values, and in-place mutation of the solver / of the picked-state becomes
explicit state passing.
-/

namespace Picker

/-! ## Equivalence classes (disjoint sets)

Modelled from the spec: `EquivalenceClasses` lives in `faebryk.libs.util`,
which is not part of the sources under verification; §9 of the spec
describes it as "a standard disjoint-set structure keyed by stable
module/parameter identity ... must support re-seeding with singleton
members for elements that never appear in any union call".  We represent
the structure extensionally by its current list of classes; `addEq`
unions all given elements (plus any class meeting them) into one class,
and the constructor seeds singletons. -/

structure EqC (α : Type) where
  classes : List (List α)
deriving Repr, DecidableEq

variable {α : Type} [DecidableEq α]

/-- Seed the structure with one singleton class per (distinct) element. -/
def EqC.ofSeeds (seeds : List α) : EqC α :=
  ⟨seeds.dedup.map (fun m => [m])⟩

/-- Does class `cl` meet the element list `ys`? -/
def EqC.touches (ys cl : List α) : Bool :=
  cl.any (fun x => decide (x ∈ ys))

/-- `add_eq(*xs)`: merge all elements of `xs` (and every class meeting
`xs`) into a single class; with no elements this is a no-op. -/
def EqC.addEq (c : EqC α) (xs : List α) : EqC α :=
  let ys := xs.dedup
  if ys = [] then c
  else
    ⟨((ys ++ (c.classes.filter (EqC.touches ys)).flatten).dedup) ::
      c.classes.filter (fun cl => !EqC.touches ys cl)⟩

/-- An element is known to the structure. -/
def EqC.mem (c : EqC α) (x : α) : Prop := ∃ cl ∈ c.classes, x ∈ cl

/-- Two elements lie in a common class. -/
def EqC.sameClass (c : EqC α) (a b : α) : Prop :=
  ∃ cl ∈ c.classes, a ∈ cl ∧ b ∈ cl

instance (c : EqC α) (x : α) : Decidable (c.mem x) := by
  unfold EqC.mem; infer_instance

instance (c : EqC α) (a b : α) : Decidable (c.sameClass a b) := by
  unfold EqC.sameClass; infer_instance

/-- Structural invariant of the disjoint-set representation: classes are
nonempty, duplicate-free and pairwise disjoint. -/
structure EqC.Inv (c : EqC α) : Prop where
  nonempty : ∀ cl ∈ c.classes, cl ≠ []
  nodup : ∀ cl ∈ c.classes, cl.Nodup
  disj : c.classes.Pairwise (fun c1 c2 => ∀ x, x ∈ c1 → x ∉ c2)

theorem EqC.ofSeeds_inv (seeds : List α) : (EqC.ofSeeds seeds).Inv := by
  refine ⟨?_, ?_, ?_⟩
  · intro cl hcl
    simp only [ofSeeds, List.mem_map] at hcl
    obtain ⟨m, _, rfl⟩ := hcl
    simp
  · intro cl hcl
    simp only [ofSeeds, List.mem_map] at hcl
    obtain ⟨m, _, rfl⟩ := hcl
    simp
  · simp only [ofSeeds]
    refine List.Pairwise.map _ ?_ seeds.nodup_dedup
    intro a b hab x hxa hxb
    simp only [List.mem_singleton] at hxa hxb
    exact hab (hxa ▸ hxb ▸ rfl)

theorem EqC.mem_ofSeeds (seeds : List α) (x : α) :
    (EqC.ofSeeds seeds).mem x ↔ x ∈ seeds := by
  simp only [mem, ofSeeds, List.mem_map]
  constructor
  · rintro ⟨cl, ⟨m, hm, rfl⟩, hx⟩
    simp only [List.mem_singleton] at hx
    exact hx ▸ (List.mem_dedup.mp hm)
  · intro hx
    exact ⟨[x], ⟨x, List.mem_dedup.mpr hx, rfl⟩, List.mem_singleton.mpr rfl⟩

theorem EqC.sameClass_ofSeeds (seeds : List α) (a b : α) :
    (EqC.ofSeeds seeds).sameClass a b ↔ a = b ∧ a ∈ seeds := by
  simp only [sameClass, ofSeeds, List.mem_map]
  constructor
  · rintro ⟨cl, ⟨m, hm, rfl⟩, ha, hb⟩
    simp only [List.mem_singleton] at ha hb
    exact ⟨ha.trans hb.symm, ha ▸ List.mem_dedup.mp hm⟩
  · rintro ⟨rfl, ha⟩
    exact ⟨[a], ⟨a, List.mem_dedup.mpr ha, rfl⟩, List.mem_singleton.mpr rfl,
      List.mem_singleton.mpr rfl⟩

theorem EqC.sameClass_refl_of_mem {c : EqC α} {x : α} (h : c.mem x) :
    c.sameClass x x := by
  obtain ⟨cl, hcl, hx⟩ := h
  exact ⟨cl, hcl, hx, hx⟩

theorem EqC.sameClass_symm {c : EqC α} {a b : α} (h : c.sameClass a b) :
    c.sameClass b a := by
  obtain ⟨cl, hcl, ha, hb⟩ := h
  exact ⟨cl, hcl, hb, ha⟩

theorem EqC.mem_of_sameClass_left {c : EqC α} {a b : α} (h : c.sameClass a b) :
    c.mem a := by
  obtain ⟨cl, hcl, ha, _⟩ := h
  exact ⟨cl, hcl, ha⟩

theorem EqC.mem_of_sameClass_right {c : EqC α} {a b : α} (h : c.sameClass a b) :
    c.mem b := by
  obtain ⟨cl, hcl, _, hb⟩ := h
  exact ⟨cl, hcl, hb⟩

/-- Under the invariant, an element lies in at most one class, so chains of
shared classes compose. -/
theorem EqC.sameClass_trans {c : EqC α} (hinv : c.Inv) {a b d : α}
    (h1 : c.sameClass a b) (h2 : c.sameClass b d) : c.sameClass a d := by
  obtain ⟨cl1, hcl1, ha, hb1⟩ := h1
  obtain ⟨cl2, hcl2, hb2, hd⟩ := h2
  by_cases heq : cl1 = cl2
  · exact ⟨cl1, hcl1, ha, heq ▸ hd⟩
  · have hsymm : Symmetric (fun c1 c2 : List α => ∀ x, x ∈ c1 → x ∉ c2) := by
      intro c1 c2 h x hx2 hx1
      exact h x hx1 hx2
    exact absurd hb2 (hinv.disj.forall hsymm hcl1 hcl2 heq b hb1)

theorem EqC.eq_of_common_mem {c : EqC α} (hinv : c.Inv) {cl1 cl2 : List α} {x : α}
    (h1 : cl1 ∈ c.classes) (h2 : cl2 ∈ c.classes) (hx1 : x ∈ cl1) (hx2 : x ∈ cl2) :
    cl1 = cl2 := by
  by_contra heq
  have hsymm : Symmetric (fun c1 c2 : List α => ∀ x, x ∈ c1 → x ∉ c2) := by
    intro c1 c2 h x hx2 hx1
    exact h x hx1 hx2
  exact (hinv.disj.forall hsymm h1 h2 heq x hx1) hx2

theorem EqC.touches_iff (ys cl : List α) :
    EqC.touches ys cl = true ↔ ∃ y ∈ cl, y ∈ ys := by
  simp [EqC.touches]

/-- An element is dragged into the merged class of `addEq c xs`. -/
def EqC.pulled (c : EqC α) (xs : List α) (x : α) : Prop :=
  x ∈ xs ∨ ∃ cl ∈ c.classes, x ∈ cl ∧ EqC.touches xs.dedup cl = true

theorem EqC.addEq_of_dedup_nil {c : EqC α} {xs : List α} (h : xs.dedup = []) :
    c.addEq xs = c := by
  simp [EqC.addEq, h]

theorem EqC.addEq_classes {c : EqC α} {xs : List α} (h : xs.dedup ≠ []) :
    (c.addEq xs).classes =
      ((xs.dedup ++ (c.classes.filter (EqC.touches xs.dedup)).flatten).dedup) ::
        c.classes.filter (fun cl => !EqC.touches xs.dedup cl) := by
  simp [EqC.addEq, h]

theorem EqC.mem_merged {c : EqC α} {xs : List α} {x : α} :
    x ∈ (xs.dedup ++ (c.classes.filter (EqC.touches xs.dedup)).flatten).dedup ↔
      c.pulled xs x := by
  simp only [List.mem_dedup, List.mem_append, List.mem_flatten, List.mem_filter,
    EqC.pulled]
  constructor
  · rintro (h | ⟨cl, ⟨hcl, ht⟩, hx⟩)
    · exact Or.inl h
    · exact Or.inr ⟨cl, hcl, hx, ht⟩
  · rintro (h | ⟨cl, hcl, hx, ht⟩)
    · exact Or.inl h
    · exact Or.inr ⟨cl, ⟨hcl, ht⟩, hx⟩

theorem EqC.addEq_inv {c : EqC α} (hinv : c.Inv) (xs : List α) :
    (c.addEq xs).Inv := by
  by_cases h : xs.dedup = []
  · rw [EqC.addEq_of_dedup_nil h]; exact hinv
  · refine ⟨?_, ?_, ?_⟩ <;> rw [EqC.addEq_classes h]
    · intro cl hcl
      rcases List.mem_cons.mp hcl with rfl | hmem
      · intro hnil
        rw [List.dedup_eq_nil, List.append_eq_nil] at hnil
        exact h hnil.1
      · exact hinv.nonempty cl (List.mem_filter.mp hmem).1
    · intro cl hcl
      rcases List.mem_cons.mp hcl with rfl | hmem
      · exact List.nodup_dedup _
      · exact hinv.nodup cl (List.mem_filter.mp hmem).1
    · refine List.Pairwise.cons ?_ ?_
      · intro cl hcl x hxm hxcl
        have hmem := List.mem_filter.mp hcl
        have hpull := EqC.mem_merged.mp hxm
        rcases hpull with hx | ⟨cl', hcl', hx', ht⟩
        · -- x ∈ xs but cl is untouched by xs
          have : EqC.touches xs.dedup cl = true :=
            (EqC.touches_iff _ _).mpr ⟨x, hxcl, List.mem_dedup.mpr hx⟩
          simp [this] at hmem
        · -- x ∈ cl' (touched) and x ∈ cl (untouched): then cl = cl', contradiction
          have : cl' = cl := EqC.eq_of_common_mem hinv hcl' hmem.1 hx' hxcl
          subst this
          simp [ht] at hmem
      · exact hinv.disj.sublist (List.filter_sublist _)

theorem EqC.mem_addEq {c : EqC α} {xs : List α} {x : α} :
    (c.addEq xs).mem x ↔ c.mem x ∨ x ∈ xs := by
  by_cases h : xs.dedup = []
  · rw [EqC.addEq_of_dedup_nil h]
    have : x ∉ xs := fun hx => by
      have := List.mem_dedup.mpr hx
      rw [h] at this
      exact absurd this (List.not_mem_nil x)
    simp [this]
  · constructor
    · rintro ⟨cl, hcl, hx⟩
      rw [EqC.addEq_classes h] at hcl
      rcases List.mem_cons.mp hcl with rfl | hmem
      · rcases EqC.mem_merged.mp hx with hx' | ⟨cl', hcl', hx', _⟩
        · exact Or.inr hx'
        · exact Or.inl ⟨cl', hcl', hx'⟩
      · exact Or.inl ⟨cl, (List.mem_filter.mp hmem).1, hx⟩
    · intro hx
      rcases hx with ⟨cl, hcl, hx⟩ | hx
      · by_cases ht : EqC.touches xs.dedup cl = true
        · refine ⟨_, by rw [EqC.addEq_classes h]; exact List.mem_cons_self _ _, ?_⟩
          exact EqC.mem_merged.mpr (Or.inr ⟨cl, hcl, hx, ht⟩)
        · refine ⟨cl, ?_, hx⟩
          rw [EqC.addEq_classes h]
          exact List.mem_cons_of_mem _ (List.mem_filter.mpr ⟨hcl, by simp [ht]⟩)
      · refine ⟨_, by rw [EqC.addEq_classes h]; exact List.mem_cons_self _ _, ?_⟩
        exact EqC.mem_merged.mpr (Or.inl hx)

theorem EqC.sameClass_addEq_of_both {c : EqC α} {xs : List α} {a b : α}
    (ha : a ∈ xs) (hb : b ∈ xs) : (c.addEq xs).sameClass a b := by
  have h : xs.dedup ≠ [] := by
    intro hnil
    have := List.mem_dedup.mpr ha
    rw [hnil] at this
    exact absurd this (List.not_mem_nil a)
  refine ⟨_, by rw [EqC.addEq_classes h]; exact List.mem_cons_self _ _, ?_, ?_⟩
  · exact EqC.mem_merged.mpr (Or.inl ha)
  · exact EqC.mem_merged.mpr (Or.inl hb)

theorem EqC.sameClass_addEq_mono {c : EqC α} {xs : List α} {a b : α}
    (h : c.sameClass a b) : (c.addEq xs).sameClass a b := by
  by_cases hd : xs.dedup = []
  · rwa [EqC.addEq_of_dedup_nil hd]
  · obtain ⟨cl, hcl, ha, hb⟩ := h
    by_cases ht : EqC.touches xs.dedup cl = true
    · refine ⟨_, by rw [EqC.addEq_classes hd]; exact List.mem_cons_self _ _, ?_, ?_⟩
      · exact EqC.mem_merged.mpr (Or.inr ⟨cl, hcl, ha, ht⟩)
      · exact EqC.mem_merged.mpr (Or.inr ⟨cl, hcl, hb, ht⟩)
    · refine ⟨cl, ?_, ha, hb⟩
      rw [EqC.addEq_classes hd]
      exact List.mem_cons_of_mem _ (List.mem_filter.mpr ⟨hcl, by simp [ht]⟩)

theorem EqC.sameClass_addEq_iff {c : EqC α} (hinv : c.Inv) {xs : List α} {a b : α} :
    (c.addEq xs).sameClass a b ↔
      c.sameClass a b ∨ (c.pulled xs a ∧ c.pulled xs b) := by
  constructor
  · intro h
    by_cases hd : xs.dedup = []
    · rw [EqC.addEq_of_dedup_nil hd] at h
      exact Or.inl h
    · obtain ⟨cl, hcl, ha, hb⟩ := h
      rw [EqC.addEq_classes hd] at hcl
      rcases List.mem_cons.mp hcl with rfl | hmem
      · exact Or.inr ⟨EqC.mem_merged.mp ha, EqC.mem_merged.mp hb⟩
      · exact Or.inl ⟨cl, (List.mem_filter.mp hmem).1, ha, hb⟩
  · rintro (h | ⟨ha, hb⟩)
    · exact EqC.sameClass_addEq_mono h
    · have hd : xs.dedup ≠ [] := by
        intro hnil
        rcases ha with hx | ⟨cl, _, _, ht⟩
        · have := List.mem_dedup.mpr hx
          rw [hnil] at this
          exact absurd this (List.not_mem_nil a)
        · rw [hnil] at ht
          simp [EqC.touches] at ht
      refine ⟨_, by rw [EqC.addEq_classes hd]; exact List.mem_cons_self _ _, ?_, ?_⟩
      · exact EqC.mem_merged.mpr ha
      · exact EqC.mem_merged.mpr hb

/-- Fold a sequence of union operations over an initial structure. -/
def EqC.build (c : EqC α) (merges : List (List α)) : EqC α :=
  merges.foldl EqC.addEq c

theorem EqC.build_nil (c : EqC α) : c.build [] = c := rfl

theorem EqC.build_cons (c : EqC α) (s : List α) (S : List (List α)) :
    c.build (s :: S) = (c.addEq s).build S := rfl

theorem EqC.build_inv {c : EqC α} (hinv : c.Inv) (S : List (List α)) :
    (c.build S).Inv := by
  induction S generalizing c with
  | nil => exact hinv
  | cons s S ih => exact ih (EqC.addEq_inv hinv s)

theorem EqC.mem_build {c : EqC α} {S : List (List α)} {x : α} :
    (c.build S).mem x ↔ c.mem x ∨ ∃ s ∈ S, x ∈ s := by
  induction S generalizing c with
  | nil => simp [EqC.build_nil]
  | cons s S ih =>
    rw [EqC.build_cons, ih, EqC.mem_addEq]
    constructor
    · rintro ((h | h) | ⟨t, ht, hx⟩)
      · exact Or.inl h
      · exact Or.inr ⟨s, List.mem_cons_self _ _, h⟩
      · exact Or.inr ⟨t, List.mem_cons_of_mem _ ht, hx⟩
    · rintro (h | ⟨t, ht, hx⟩)
      · exact Or.inl (Or.inl h)
      · rcases List.mem_cons.mp ht with rfl | ht'
        · exact Or.inl (Or.inr hx)
        · exact Or.inr ⟨t, ht', hx⟩

theorem EqC.sameClass_build_mono {c : EqC α} {S : List (List α)} {a b : α}
    (h : c.sameClass a b) : (c.build S).sameClass a b := by
  induction S generalizing c with
  | nil => exact h
  | cons s S ih => exact ih (EqC.sameClass_addEq_mono h)

theorem EqC.sameClass_build_of_link {c : EqC α} {S : List (List α)} {s : List α}
    {a b : α} (hs : s ∈ S) (ha : a ∈ s) (hb : b ∈ s) :
    (c.build S).sameClass a b := by
  induction S generalizing c with
  | nil => exact absurd hs (List.not_mem_nil s)
  | cons t S ih =>
    rcases List.mem_cons.mp hs with rfl | hs'
    · rw [EqC.build_cons]
      exact EqC.sameClass_build_mono (EqC.sameClass_addEq_of_both ha hb)
    · rw [EqC.build_cons]
      exact ih hs'

/-- Two elements jointly requested by some merge in the list. -/
def linkedBy (S : List (List α)) (x y : α) : Prop := ∃ s ∈ S, x ∈ s ∧ y ∈ s

instance (S : List (List α)) (x y : α) : Decidable (linkedBy S x y) := by
  unfold linkedBy; infer_instance

theorem linkedBy_symm {S : List (List α)} {x y : α} (h : linkedBy S x y) :
    linkedBy S y x := by
  obtain ⟨s, hs, hx, hy⟩ := h
  exact ⟨s, hs, hy, hx⟩

theorem rtg_mono_of {β : Type} {r r' : β → β → Prop}
    (h : ∀ x y, r x y → Relation.ReflTransGen r' x y)
    {a b : β} (hr : Relation.ReflTransGen r a b) : Relation.ReflTransGen r' a b := by
  induction hr with
  | refl => exact Relation.ReflTransGen.refl
  | tail _ hstep ih => exact ih.trans (h _ _ hstep)

theorem rtg_symm {β : Type} {r : β → β → Prop} (hsym : ∀ x y, r x y → r y x)
    {a b : β} (h : Relation.ReflTransGen r a b) : Relation.ReflTransGen r b a := by
  induction h with
  | refl => exact Relation.ReflTransGen.refl
  | tail _ hstep ih => exact Relation.ReflTransGen.head (hsym _ _ hstep) ih

theorem EqC.sameClass_of_rtg {c : EqC α} (hinv : c.Inv) {a b : α}
    (hmem : c.mem a) (h : Relation.ReflTransGen c.sameClass a b) :
    c.sameClass a b := by
  induction h with
  | refl => exact EqC.sameClass_refl_of_mem hmem
  | tail _ hstep ih => exact EqC.sameClass_trans hinv ih hstep

/-- Characterization of the classes produced by a fold of unions: two
elements share a class exactly when both are known and they are joined by a
chain of initial same-class facts and merge requests. -/
theorem EqC.sameClass_build_iff {c : EqC α} (hinv : c.Inv) {S : List (List α)}
    {a b : α} :
    (c.build S).sameClass a b ↔
      ((c.mem a ∨ ∃ s ∈ S, a ∈ s) ∧ (c.mem b ∨ ∃ s ∈ S, b ∈ s) ∧
        Relation.ReflTransGen (fun x y => c.sameClass x y ∨ linkedBy S x y) a b) := by
  induction S generalizing c with
  | nil =>
    rw [EqC.build_nil]
    constructor
    · intro h
      refine ⟨Or.inl (EqC.mem_of_sameClass_left h),
        Or.inl (EqC.mem_of_sameClass_right h),
        Relation.ReflTransGen.single (Or.inl h)⟩
    · rintro ⟨ha, hb, hrtg⟩
      have ha' : c.mem a := by
        rcases ha with h | ⟨s, hs, _⟩
        · exact h
        · exact absurd hs (List.not_mem_nil s)
      refine EqC.sameClass_of_rtg hinv ha' (rtg_mono_of ?_ hrtg)
      intro x y hxy
      rcases hxy with hxy | ⟨s, hs, _⟩
      · exact Relation.ReflTransGen.single hxy
      · exact absurd hs (List.not_mem_nil s)
  | cons s S ih =>
    rw [EqC.build_cons, ih (EqC.addEq_inv hinv s)]
    have hmem_iff : ∀ x : α, ((c.addEq s).mem x ∨ ∃ t ∈ S, x ∈ t) ↔
        (c.mem x ∨ ∃ t ∈ s :: S, x ∈ t) := by
      intro x
      rw [EqC.mem_addEq]
      constructor
      · rintro ((h | h) | ⟨t, ht, hx⟩)
        · exact Or.inl h
        · exact Or.inr ⟨s, List.mem_cons_self _ _, h⟩
        · exact Or.inr ⟨t, List.mem_cons_of_mem _ ht, hx⟩
      · rintro (h | ⟨t, ht, hx⟩)
        · exact Or.inl (Or.inl h)
        · rcases List.mem_cons.mp ht with rfl | ht'
          · exact Or.inl (Or.inr hx)
          · exact Or.inr ⟨t, ht', hx⟩
    have hstep : ∀ x y : α,
        ((c.addEq s).sameClass x y ∨ linkedBy S x y) →
          Relation.ReflTransGen
            (fun x y => c.sameClass x y ∨ linkedBy (s :: S) x y) x y := by
      intro x y hxy
      rcases hxy with hxy | hxy
      · rcases (EqC.sameClass_addEq_iff hinv).mp hxy with h | ⟨hx, hy⟩
        · exact Relation.ReflTransGen.single (Or.inl h)
        · have reach : ∀ z : α, c.pulled s z →
              ∃ w ∈ s, Relation.ReflTransGen
                (fun x y => c.sameClass x y ∨ linkedBy (s :: S) x y) z w := by
            intro z hz
            rcases hz with hz | ⟨cl, hcl, hzcl, ht⟩
            · exact ⟨z, hz, Relation.ReflTransGen.refl⟩
            · obtain ⟨w, hwcl, hws⟩ := (EqC.touches_iff _ _).mp ht
              exact ⟨w, List.mem_dedup.mp hws,
                Relation.ReflTransGen.single (Or.inl ⟨cl, hcl, hzcl, hwcl⟩)⟩
          obtain ⟨wx, hwxs, hx'⟩ := reach x hx
          obtain ⟨wy, hwys, hy'⟩ := reach y hy
          have hmid : Relation.ReflTransGen
              (fun x y => c.sameClass x y ∨ linkedBy (s :: S) x y) wx wy :=
            Relation.ReflTransGen.single
              (Or.inr ⟨s, List.mem_cons_self _ _, hwxs, hwys⟩)
          have hy'' := rtg_symm (fun u v huv =>
            huv.elim (fun h1 => Or.inl (EqC.sameClass_symm h1))
              (fun h2 => Or.inr (linkedBy_symm h2))) hy'
          exact (hx'.trans hmid).trans hy''
      · obtain ⟨t, ht, hx, hy⟩ := hxy
        exact Relation.ReflTransGen.single
          (Or.inr ⟨t, List.mem_cons_of_mem _ ht, hx, hy⟩)
    have hstep' : ∀ x y : α,
        (c.sameClass x y ∨ linkedBy (s :: S) x y) →
          Relation.ReflTransGen
            (fun x y => (c.addEq s).sameClass x y ∨ linkedBy S x y) x y := by
      intro x y hxy
      rcases hxy with hxy | ⟨t, ht, hx, hy⟩
      · exact Relation.ReflTransGen.single (Or.inl (EqC.sameClass_addEq_mono hxy))
      · rcases List.mem_cons.mp ht with rfl | ht'
        · exact Relation.ReflTransGen.single
            (Or.inl (EqC.sameClass_addEq_of_both hx hy))
        · exact Relation.ReflTransGen.single (Or.inr ⟨t, ht', hx, hy⟩)
    constructor
    · rintro ⟨ha, hb, hr⟩
      exact ⟨(hmem_iff a).mp ha, (hmem_iff b).mp hb, rtg_mono_of hstep hr⟩
    · rintro ⟨ha, hb, hr⟩
      exact ⟨(hmem_iff a).mpr ha, (hmem_iff b).mpr hb, rtg_mono_of hstep' hr⟩

/-- Specialization to a singleton-seeded start: membership in a common final
class is exactly seed/merge membership plus a chain of merge links. -/
theorem EqC.sameClass_seeds_build_iff {seeds : List α} {S : List (List α)}
    {a b : α} :
    ((EqC.ofSeeds seeds).build S).sameClass a b ↔
      ((a ∈ seeds ∨ ∃ s ∈ S, a ∈ s) ∧ (b ∈ seeds ∨ ∃ s ∈ S, b ∈ s) ∧
        Relation.ReflTransGen (linkedBy S) a b) := by
  rw [EqC.sameClass_build_iff (EqC.ofSeeds_inv seeds)]
  simp only [EqC.mem_ofSeeds]
  constructor
  · rintro ⟨ha, hb, hr⟩
    refine ⟨ha, hb, rtg_mono_of ?_ hr⟩
    intro x y hxy
    rcases hxy with hxy | hxy
    · rcases (EqC.sameClass_ofSeeds seeds x y).mp hxy with ⟨rfl, _⟩
      exact Relation.ReflTransGen.refl
    · exact Relation.ReflTransGen.single hxy
  · rintro ⟨ha, hb, hr⟩
    exact ⟨ha, hb, rtg_mono_of
      (fun x y h => Relation.ReflTransGen.single (Or.inr h)) hr⟩

/-- In a pairwise-disjoint family, a covered element is counted by exactly
one class. -/
theorem countP_mem_eq_one {l : List (List α)}
    (hpw : l.Pairwise (fun c1 c2 => ∀ x, x ∈ c1 → x ∉ c2)) {x : α}
    (hx : ∃ cl ∈ l, x ∈ cl) : l.countP (fun cl => decide (x ∈ cl)) = 1 := by
  induction l with
  | nil => simp at hx
  | cons cl rest ih =>
    rw [List.countP_cons]
    rcases List.pairwise_cons.mp hpw with ⟨hhead, hrest⟩
    by_cases hmem : x ∈ cl
    · have hzero : rest.countP (fun cl => decide (x ∈ cl)) = 0 := by
        rw [List.countP_eq_zero]
        intro cl' hcl'
        simp only [decide_eq_true_eq]
        exact hhead cl' hcl' x hmem
      simp [hzero, hmem]
    · have hex : ∃ cl' ∈ rest, x ∈ cl' := by
        obtain ⟨cl', hcl', hx'⟩ := hx
        rcases List.mem_cons.mp hcl' with rfl | h
        · exact absurd hx' hmem
        · exact ⟨cl', h, hx'⟩
      simp [ih hrest hex, hmem]

/-! ## Constraint-system data model

Modules and parameters are identified by natural numbers.  `owner` is the
(possibly undefined) map sending a parameter to the module owning it
(`p.get_parent()[0]` when that parent is a `Module`). -/

abbrev Param := Nat
abbrev ModuleId := Nat

/-- An operand of an expression node: a parameter or a literal value. -/
inductive Operand where
  | param : Param → Operand
  | lit : Nat → Operand
deriving Repr, DecidableEq

/-- A constrainable expression node of the graphs of the input modules.
`is_Is` marks `Is` (equality) nodes; `constrained` is the enforced flag;
`operands` holds the operands (for compound expressions, the recursively
collected parameter operands, which is all `find_independent_groups`
reads from them). -/
structure CExpr where
  is_Is : Bool
  constrained : Bool
  operands : List Operand
deriving Repr, DecidableEq

/-- `get_operand_parameters` / `operatable_operands` of a node. -/
def CExpr.paramOperands (e : CExpr) : List Param :=
  e.operands.filterMap (fun o => match o with | .param p => some p | .lit _ => none)

/-- `get_operand_literals` of a node (its literal operands). -/
def CExpr.litOperands (e : CExpr) : List Nat :=
  e.operands.filterMap (fun o => match o with | .param _ => none | .lit v => some v)

/-- First pass of `find_independent_groups` (picker.py lines 275-285): walk
the constrained `Is` nodes, union their operatable operands into alias
classes, and when a node has a literal operand record that literal for the
node's first operatable operand.  (An `Is` with a literal but no operatable
operand raises an uncaught KeyError in the source; it is modelled as
skipped and never exercised.) -/
def aliasPass (exprs : List CExpr) : EqC Param × (Param → Option Nat) :=
  exprs.foldl
    (fun acc e =>
      if e.is_Is && e.constrained then
        let aliased := acc.1.addEq e.paramOperands
        let lits :=
          match e.litOperands, e.paramOperands with
          | v :: _, p :: _ => fun q => if q = p then some v else acc.2 q
          | _, _ => acc.2
        (aliased, lits)
      else acc)
    (⟨[]⟩, fun _ => none)

/-- Second pass (lines 286-294): for every alias class, collect the
distinct literals its members are aliased to; two different literals are a
`ContradictionByLiteral` (`.error`); a single literal is propagated to the
whole class. -/
def propagateLits (groups : List (List Param)) (lits0 : Param → Option Nat) :
    Except Unit (Param → Option Nat) :=
  groups.foldl
    (fun acc cl =>
      match acc with
      | .error e => .error e
      | .ok l =>
        match (cl.filterMap l).dedup with
        | [] => .ok l
        | [v] => .ok (fun q => if q ∈ cl then some v else l q)
        | _ => .error ())
    (.ok lits0)

/-- The parameters pinned to literal values after both alias passes. -/
def pinnedLits (exprs : List CExpr) : Except Unit (Param → Option Nat) :=
  propagateLits (aliasPass exprs).1.classes (aliasPass exprs).2

/-- Total accessor for the pinned-literal map of a non-contradictory
system. -/
def litsOf (exprs : List CExpr) : Param → Option Nat :=
  match pinnedLits exprs with
  | .ok l => l
  | .error _ => fun _ => none

/-- The parameter-level merge requests (lines 296-305): for every
constrained expression, its parameter operands minus the literal-pinned
ones. -/
def paramMerges (exprs : List CExpr) (lits : Param → Option Nat) :
    List (List Param) :=
  (exprs.filter (fun e => e.constrained)).map
    (fun e => e.paramOperands.dedup.filter (fun p => (lits p).isNone))

/-- The parameter-level equivalence classes. -/
def paramEqs (exprs : List CExpr) (lits : Param → Option Nat) : EqC Param :=
  EqC.build ⟨[]⟩ (paramMerges exprs lits)

/-- The module-level merge requests (lines 309-317): for each parameter
class, the owning modules that belong to the input set. -/
def moduleMerges (exprs : List CExpr) (lits : Param → Option Nat)
    (owner : Param → Option ModuleId) (ms : List ModuleId) :
    List (List ModuleId) :=
  (paramEqs exprs lits).classes.map
    (fun p_eq => ((p_eq.filterMap owner).filter (fun m => decide (m ∈ ms))).dedup)

/-- Slow path of `find_independent_groups` (picker.py lines 271-320),
taken when no reusable solver state is available: seed every module as a
singleton and union the owners along each parameter class. -/
def find_independent_groups_slow (exprs : List CExpr)
    (owner : Param → Option ModuleId) (modules : List ModuleId) :
    Except Unit (List (List ModuleId)) :=
  let ms := modules.dedup
  match pinnedLits exprs with
  | .error e => .error e
  | .ok lits =>
    .ok ((EqC.build (EqC.ofSeeds ms) (moduleMerges exprs lits owner ms)).classes)

/-- The opaque reusable solver state (`DefaultSolver.reusable_state`): its
mutation map sends each parameter to its image in the solver's mutated
graphs and `graph_of` names the graph that image lives in.  The solver
itself lives outside the verified sources; only the shape read by
picker.py lines 322-334 is modelled. -/
structure ReusableState where
  map_forward : Param → Param
  graph_of : Param → Nat

/-- `get_graphs` of the mapped pickable parameters of one module
(lines 325-327); `pick_params` models
`m.get_trait(F.is_pickable_by_type).get_parameters().values()`. -/
def m_graphs (st : ReusableState) (pick_params : ModuleId → List Param)
    (m : ModuleId) : List Nat :=
  ((pick_params m).map (fun p => st.graph_of (st.map_forward p))).dedup

/-- Fast path of `find_independent_groups` (lines 322-334): union the
graphs touched by each module, then regroup modules by graph class. -/
def find_independent_groups_fast (st : ReusableState)
    (pick_params : ModuleId → List Param) (modules : List ModuleId) :
    List (List ModuleId) :=
  let ms := modules.dedup
  let graphs := EqC.build ⟨[]⟩ (ms.map (m_graphs st pick_params))
  let graph_to_m :=
    fun g => ms.filter (fun m => decide (g ∈ m_graphs st pick_params m))
  graphs.classes.map (fun gg => ((gg.map graph_to_m).flatten).dedup)

/-- `find_independent_groups` (picker.py lines 261-334): dispatch on the
presence of a reusable solver state. -/
def find_independent_groups (stateOpt : Option ReusableState)
    (exprs : List CExpr) (owner : Param → Option ModuleId)
    (pick_params : ModuleId → List Param) (modules : List ModuleId) :
    Except Unit (List (List ModuleId)) :=
  match stateOpt with
  | none => find_independent_groups_slow exprs owner modules
  | some st => .ok (find_independent_groups_fast st pick_params modules)

/-- Two modules land in a common returned group. -/
def sameGroup (gs : List (List ModuleId)) (a b : ModuleId) : Prop :=
  ∃ cl ∈ gs, a ∈ cl ∧ b ∈ cl

instance (gs : List (List ModuleId)) (a b : ModuleId) :
    Decidable (sameGroup gs a b) := by
  unfold sameGroup; infer_instance

example :
    find_independent_groups_slow
      [⟨true, true, [.param 1, .param 2]⟩]
      (fun p => if p = 1 then some 1 else if p = 2 then some 2 else none)
      [1, 2, 3] = .ok [[1, 2], [3]] := by rfl

example :
    find_independent_groups_slow
      [⟨true, true, [.param 1, .param 2]⟩, ⟨true, true, [.param 1, .lit 5]⟩]
      (fun p => if p = 1 then some 1 else if p = 2 then some 2 else none)
      [1, 2] = .ok [[1], [2]] := by rfl

theorem EqC.singleton_stable {c : EqC α} [DecidableEq α] {m : α}
    (h : [m] ∈ c.classes) {xs : List α} (hm : m ∉ xs) :
    [m] ∈ (c.addEq xs).classes := by
  by_cases hd : xs.dedup = []
  · rwa [EqC.addEq_of_dedup_nil hd]
  · rw [EqC.addEq_classes hd]
    refine List.mem_cons_of_mem _ (List.mem_filter.mpr ⟨h, ?_⟩)
    have ht : EqC.touches xs.dedup [m] = false := by
      rw [← Bool.not_eq_true, EqC.touches_iff]
      rintro ⟨y, hy, hys⟩
      simp only [List.mem_singleton] at hy
      exact hm (hy ▸ List.mem_dedup.mp hys)
    simp [ht]

theorem EqC.singleton_stable_build {c : EqC α} [DecidableEq α] {m : α}
    (h : [m] ∈ c.classes) {S : List (List α)} (hm : ∀ s ∈ S, m ∉ s) :
    [m] ∈ (c.build S).classes := by
  induction S generalizing c with
  | nil => exact h
  | cons s S ih =>
    rw [EqC.build_cons]
    exact ih (EqC.singleton_stable h (hm s (List.mem_cons_self s S)))
      (fun t ht => hm t (List.mem_cons_of_mem _ ht))

theorem EqC.not_mem_empty {α : Type} (x : α) :
    ¬ (EqC.mk ([] : List (List α))).mem x := by
  rintro ⟨cl, hcl, _⟩
  exact absurd hcl (List.not_mem_nil cl)

theorem EqC.singleton_mem_ofSeeds {α : Type} [DecidableEq α] {seeds : List α}
    {m : α} (h : m ∈ seeds) : [m] ∈ (EqC.ofSeeds seeds).classes :=
  List.mem_map.mpr ⟨m, List.mem_dedup.mpr h, rfl⟩

theorem sameGroup_classes (c : EqC ModuleId) (a b : ModuleId) :
    sameGroup c.classes a b ↔ c.sameClass a b := Iff.rfl

/-- Destructor for a successful run of the slow grouping path. -/
theorem find_independent_groups_slow_ok {exprs : List CExpr}
    {owner : Param → Option ModuleId} {modules : List ModuleId}
    {gs : List (List ModuleId)}
    (hok : find_independent_groups_slow exprs owner modules = .ok gs) :
    gs = (EqC.build (EqC.ofSeeds modules.dedup)
      (moduleMerges exprs (litsOf exprs) owner modules.dedup)).classes := by
  unfold find_independent_groups_slow at hok
  cases hpin : pinnedLits exprs with
  | error e =>
    rw [hpin] at hok
    exact absurd hok (by simp)
  | ok lits =>
    rw [hpin] at hok
    have hl : litsOf exprs = lits := by unfold litsOf; rw [hpin]
    rw [hl]
    exact (Except.ok.inj hok).symm

/-- The linking relation of the amended C4: an enforced `Is` constraint
with a parameter operand owned by `m1` and one owned by `m2`, neither
parameter pinned to a literal by the alias passes. -/
def eqLinkFree (exprs : List CExpr) (lits : Param → Option Nat)
    (owner : Param → Option ModuleId) (ms : List ModuleId)
    (m1 m2 : ModuleId) : Prop :=
  ∃ e ∈ exprs, e.is_Is = true ∧ e.constrained = true ∧
    ∃ p ∈ e.paramOperands, ∃ q ∈ e.paramOperands,
      lits p = none ∧ lits q = none ∧
      owner p = some m1 ∧ owner q = some m2 ∧ m1 ∈ ms ∧ m2 ∈ ms

/-- Membership in the slow-path result lies within the input module set. -/
theorem moduleMerges_subset {exprs : List CExpr} {lits : Param → Option Nat}
    {owner : Param → Option ModuleId} {ms : List ModuleId} {s : List ModuleId}
    (hs : s ∈ moduleMerges exprs lits owner ms) {m : ModuleId} (hm : m ∈ s) :
    m ∈ ms := by
  obtain ⟨p_eq, _, rfl⟩ := List.mem_map.mp hs
  have := List.mem_filter.mp (List.mem_dedup.mp hm)
  simpa using this.2

/-- A module occurring in some module-level merge request owns a parameter
of some constrained expression. -/
theorem moduleMerges_owner {exprs : List CExpr} {lits : Param → Option Nat}
    {owner : Param → Option ModuleId} {ms : List ModuleId} {s : List ModuleId}
    (hs : s ∈ moduleMerges exprs lits owner ms) {m : ModuleId} (hm : m ∈ s) :
    ∃ e ∈ exprs, e.constrained = true ∧ ∃ p ∈ e.paramOperands, owner p = some m := by
  obtain ⟨p_eq, hpeq, rfl⟩ := List.mem_map.mp hs
  have h2 := (List.mem_filter.mp (List.mem_dedup.mp hm)).1
  obtain ⟨p, hp, hop⟩ := List.mem_filterMap.mp h2
  -- p belongs to a class of paramEqs, hence to some parameter merge request
  have hmem : (paramEqs exprs lits).mem p := ⟨p_eq, hpeq, hp⟩
  rcases EqC.mem_build.mp hmem with habs | ⟨s', hs', hps'⟩
  · exact absurd habs (EqC.not_mem_empty p)
  · obtain ⟨e, he, rfl⟩ := List.mem_map.mp hs'
    have he' := List.mem_filter.mp he
    have hp' := List.mem_filter.mp hps'
    exact ⟨e, he'.1, by simpa using he'.2,
      p, List.mem_dedup.mp hp'.1, hop⟩

/-- **C4 (amended).** The slow grouping path returns a partition of the
input module set: every input module appears in exactly one group, groups
contain only input modules, modules joined by a chain of enforced `Is`
constraints on parameters not pinned to literals share a group, and a
module owning no parameter of any enforced constraint keeps its singleton
group. -/
theorem find_independent_groups_slow_partition (exprs : List CExpr)
    (owner : Param → Option ModuleId) (modules : List ModuleId)
    (gs : List (List ModuleId))
    (hok : find_independent_groups_slow exprs owner modules = .ok gs) :
    (∀ m ∈ modules, gs.countP (fun cl => decide (m ∈ cl)) = 1) ∧
    (∀ cl ∈ gs, ∀ m ∈ cl, m ∈ modules) ∧
    (∀ m1 m2 : ModuleId, m1 ∈ modules →
      Relation.ReflTransGen (eqLinkFree exprs (litsOf exprs) owner modules) m1 m2 →
      sameGroup gs m1 m2) ∧
    (∀ m ∈ modules,
      (∀ e ∈ exprs, e.constrained = true →
        ∀ p ∈ e.paramOperands, owner p ≠ some m) →
      [m] ∈ gs) := by
  have hgs := find_independent_groups_slow_ok hok
  subst hgs
  have hinv := EqC.build_inv (EqC.ofSeeds_inv modules.dedup)
    (moduleMerges exprs (litsOf exprs) owner modules.dedup)
  refine ⟨?_, ?_, ?_, ?_⟩
  · intro m hm
    refine countP_mem_eq_one hinv.disj ?_
    exact EqC.mem_build.mpr
      (Or.inl ((EqC.mem_ofSeeds _ m).mpr (List.mem_dedup.mpr hm)))
  · intro cl hcl m hmcl
    have hmem : (EqC.build (EqC.ofSeeds modules.dedup)
        (moduleMerges exprs (litsOf exprs) owner modules.dedup)).mem m :=
      ⟨cl, hcl, hmcl⟩
    rcases EqC.mem_build.mp hmem with h | ⟨s, hs, hms⟩
    · exact List.mem_dedup.mp ((EqC.mem_ofSeeds _ m).mp h)
    · exact List.mem_dedup.mp (moduleMerges_subset hs hms)
  · intro m1 m2 hm1 hchain
    rw [sameGroup_classes]
    induction hchain with
    | refl =>
      exact EqC.sameClass_refl_of_mem (EqC.mem_build.mpr
        (Or.inl ((EqC.mem_ofSeeds _ m1).mpr (List.mem_dedup.mpr hm1))))
    | tail _ hstep ih =>
      refine EqC.sameClass_trans hinv ih ?_
      obtain ⟨e, he, hIs, hcon, p, hp, q, hq, hlp, hlq, hop, hoq, hx, hy⟩ := hstep
      -- the parameter merge request contributed by e
      have hse : e.paramOperands.dedup.filter
          (fun p => ((litsOf exprs) p).isNone) ∈
          paramMerges exprs (litsOf exprs) := by
        exact List.mem_map.mpr ⟨e, List.mem_filter.mpr ⟨he, by simp [hcon]⟩, rfl⟩
      have hpin : p ∈ e.paramOperands.dedup.filter
          (fun p => ((litsOf exprs) p).isNone) :=
        List.mem_filter.mpr ⟨List.mem_dedup.mpr hp, by simp [hlp]⟩
      have hqin : q ∈ e.paramOperands.dedup.filter
          (fun p => ((litsOf exprs) p).isNone) :=
        List.mem_filter.mpr ⟨List.mem_dedup.mpr hq, by simp [hlq]⟩
      have hpq : (paramEqs exprs (litsOf exprs)).sameClass p q :=
        EqC.sameClass_build_of_link hse hpin hqin
      obtain ⟨p_cl, hpcl, hppcl, hqpcl⟩ := hpq
      have hmerge : ((p_cl.filterMap owner).filter
          (fun m => decide (m ∈ modules.dedup))).dedup ∈
          moduleMerges exprs (litsOf exprs) owner modules.dedup :=
        List.mem_map.mpr ⟨p_cl, hpcl, rfl⟩
      refine EqC.sameClass_build_of_link hmerge ?_ ?_
      · exact List.mem_dedup.mpr (List.mem_filter.mpr
          ⟨List.mem_filterMap.mpr ⟨p, hppcl, hop⟩,
            by simp [List.mem_dedup.mpr hx]⟩)
      · exact List.mem_dedup.mpr (List.mem_filter.mpr
          ⟨List.mem_filterMap.mpr ⟨q, hqpcl, hoq⟩,
            by simp [List.mem_dedup.mpr hy]⟩)
  · intro m hm hno
    refine EqC.singleton_stable_build
      (EqC.singleton_mem_ofSeeds (List.mem_dedup.mpr hm)) ?_
    intro s hs hms
    obtain ⟨e, he, hcon, p, hp, hop⟩ := moduleMerges_owner hs hms
    exact hno e he hcon p hp hop

/-- Fixture for the C4 counterexample: two modules whose parameters are
equated by an enforced `Is`, one of those parameters also aliased to a
literal. -/
def exprsC4 : List CExpr :=
  [⟨true, true, [.param 1, .param 2]⟩, ⟨true, true, [.param 1, .lit 5]⟩]

def ownerC4 : Param → Option ModuleId :=
  fun p => if p = 1 then some 1 else if p = 2 then some 2 else none

/-- **C4, counterexample.** Modules 1 and 2 are joined by an enforced `Is`
equality on their parameters, yet the slow grouping path puts them in
different groups: both parameters are pinned to the literal 5 by the alias
passes and therefore excluded from the parameter-level partition, so the
claim as stated (chained modules always share a group) is false. -/
theorem C4_counterexample :
    find_independent_groups_slow exprsC4 ownerC4 [1, 2] = .ok [[1], [2]] ∧
    (∃ e ∈ exprsC4, e.is_Is = true ∧ e.constrained = true ∧
      ∃ p ∈ e.paramOperands, ∃ q ∈ e.paramOperands,
        ownerC4 p = some 1 ∧ ownerC4 q = some 2) ∧
    ¬ sameGroup [[1], [2]] 1 2 :=
  ⟨by rfl, by decide, by decide⟩

def exprsC4w : List CExpr := [⟨true, true, [.param 1, .param 2]⟩]

/-- Witness instantiating `find_independent_groups_slow_partition` on a
concrete three-module system with one enforced equality. -/
theorem C4_witness :
    sameGroup [[1, 2], [3]] 1 2 ∧ [3] ∈ ([[1, 2], [3]] : List (List ModuleId)) ∧
    ([[1, 2], [3]] : List (List ModuleId)).countP
      (fun cl => decide ((1 : ModuleId) ∈ cl)) = 1 := by
  have h := find_independent_groups_slow_partition exprsC4w ownerC4 [1, 2, 3]
    [[1, 2], [3]] (by rfl)
  refine ⟨?_, ?_, ?_⟩
  · refine h.2.2.1 1 2 (by decide) ?_
    refine Relation.ReflTransGen.single ?_
    exact ⟨⟨true, true, [.param 1, .param 2]⟩, by decide, rfl, rfl,
      1, by decide, 2, by decide, rfl, rfl, by decide, by decide,
      by decide, by decide⟩
  · exact h.2.2.2 3 (by decide) (by decide)
  · exact h.1 1 (by decide)

theorem EqC.empty_inv {α : Type} : (EqC.mk ([] : List (List α))).Inv :=
  ⟨fun cl hcl => absurd hcl (List.not_mem_nil cl),
   fun cl hcl => absurd hcl (List.not_mem_nil cl),
   List.Pairwise.nil⟩

theorem EqC.sameClass_emptyBuild_iff {α : Type} [DecidableEq α]
    {S : List (List α)} {a b : α} :
    ((EqC.mk ([] : List (List α))).build S).sameClass a b ↔
      ((∃ s ∈ S, a ∈ s) ∧ (∃ s ∈ S, b ∈ s) ∧
        Relation.ReflTransGen (linkedBy S) a b) := by
  rw [EqC.sameClass_build_iff EqC.empty_inv]
  constructor
  · rintro ⟨ha, hb, hr⟩
    refine ⟨?_, ?_, ?_⟩
    · rcases ha with h | h
      · exact absurd h (EqC.not_mem_empty a)
      · exact h
    · rcases hb with h | h
      · exact absurd h (EqC.not_mem_empty b)
      · exact h
    · refine rtg_mono_of ?_ hr
      intro x y hxy
      rcases hxy with hxy | hxy
      · exact absurd (EqC.mem_of_sameClass_left hxy) (EqC.not_mem_empty x)
      · exact Relation.ReflTransGen.single hxy
  · rintro ⟨ha, hb, hr⟩
    exact ⟨Or.inr ha, Or.inr hb, rtg_mono_of
      (fun x y h => Relation.ReflTransGen.single (Or.inr h)) hr⟩

/-- One-step module linking on the fast path: both modules in play and a
common (mapped) graph. -/
def fastStep (st : ReusableState) (pp : ModuleId → List Param)
    (ms : List ModuleId) (m1 m2 : ModuleId) : Prop :=
  m1 ∈ ms ∧ m2 ∈ ms ∧ ∃ g ∈ m_graphs st pp m1, g ∈ m_graphs st pp m2

/-- A chain of graph links lifts to a chain of module links. -/
theorem graph_chain_to_module_chain (st : ReusableState)
    (pp : ModuleId → List Param) (ms : List ModuleId) {g1 g2 : Nat}
    (hr : Relation.ReflTransGen (linkedBy (ms.map (m_graphs st pp))) g1 g2) :
    ∀ m1 m2, m1 ∈ ms → m2 ∈ ms → g1 ∈ m_graphs st pp m1 →
      g2 ∈ m_graphs st pp m2 →
      Relation.ReflTransGen (fastStep st pp ms) m1 m2 := by
  induction hr with
  | refl =>
    intro m1 m2 hm1 hm2 hg1 hg2
    exact Relation.ReflTransGen.single ⟨hm1, hm2, _, hg1, hg2⟩
  | tail _ hstep ih =>
    intro m1 m2 hm1 hm2 hg1 hg2
    obtain ⟨s, hs, hx, hb⟩ := hstep
    obtain ⟨m', hm', rfl⟩ := List.mem_map.mp hs
    exact (ih m1 m' hm1 hm' hg1 hx).tail ⟨hm', hm2, _, hb, hg2⟩

/-- A chain of module links lifts to a chain of graph links, provided every
module has at least one graph. -/
theorem module_chain_to_graph_chain (st : ReusableState)
    (pp : ModuleId → List Param) (ms : List ModuleId)
    (hG : ∀ m ∈ ms, m_graphs st pp m ≠ []) {m1 m2 : ModuleId}
    (hr : Relation.ReflTransGen (fastStep st pp ms) m1 m2) (hm1 : m1 ∈ ms) :
    ∃ g1 ∈ m_graphs st pp m1, ∃ g2 ∈ m_graphs st pp m2,
      Relation.ReflTransGen (linkedBy (ms.map (m_graphs st pp))) g1 g2 := by
  induction hr with
  | refl =>
    obtain ⟨g, hg⟩ := List.exists_mem_of_ne_nil _ (hG m1 hm1)
    exact ⟨g, hg, g, hg, Relation.ReflTransGen.refl⟩
  | tail _ hstep ih =>
    obtain ⟨g1, hg1, gx, hgx, hchain⟩ := ih
    obtain ⟨hx, hm2, g, hgx', hgm2⟩ := hstep
    refine ⟨g1, hg1, g, hgm2, ?_⟩
    exact hchain.tail ⟨m_graphs st pp _, List.mem_map.mpr ⟨_, hx, rfl⟩, hgx, hgx'⟩

/-- Characterization of the fast-path grouping: two modules share a group
exactly when both are in play and joined by a chain of shared graphs. -/
theorem fast_sameGroup_iff (st : ReusableState) (pp : ModuleId → List Param)
    (modules : List ModuleId)
    (hG : ∀ m ∈ modules.dedup, m_graphs st pp m ≠ []) (m1 m2 : ModuleId) :
    sameGroup (find_independent_groups_fast st pp modules) m1 m2 ↔
      (m1 ∈ modules.dedup ∧ m2 ∈ modules.dedup ∧
        Relation.ReflTransGen (fastStep st pp modules.dedup) m1 m2) := by
  constructor
  · rintro ⟨cl, hcl, h1, h2⟩
    obtain ⟨gg, hgg, rfl⟩ := List.mem_map.mp hcl
    obtain ⟨l1, hl1, hm1l⟩ := List.mem_flatten.mp (List.mem_dedup.mp h1)
    obtain ⟨g1, hg1gg, rfl⟩ := List.mem_map.mp hl1
    obtain ⟨l2, hl2, hm2l⟩ := List.mem_flatten.mp (List.mem_dedup.mp h2)
    obtain ⟨g2, hg2gg, rfl⟩ := List.mem_map.mp hl2
    have hm1 := List.mem_filter.mp hm1l
    have hm2 := List.mem_filter.mp hm2l
    have hsc : (EqC.build (EqC.mk [])
        (modules.dedup.map (m_graphs st pp))).sameClass g1 g2 :=
      ⟨gg, hgg, hg1gg, hg2gg⟩
    obtain ⟨_, _, hchain⟩ := EqC.sameClass_emptyBuild_iff.mp hsc
    refine ⟨hm1.1, hm2.1, ?_⟩
    exact graph_chain_to_module_chain st pp _ hchain m1 m2 hm1.1 hm2.1
      (by simpa using hm1.2) (by simpa using hm2.2)
  · rintro ⟨hm1, hm2, hchain⟩
    obtain ⟨g1, hg1, g2, hg2, hgchain⟩ :=
      module_chain_to_graph_chain st pp _ hG hchain hm1
    have hsc : (EqC.build (EqC.mk [])
        (modules.dedup.map (m_graphs st pp))).sameClass g1 g2 :=
      EqC.sameClass_emptyBuild_iff.mpr
        ⟨⟨_, List.mem_map.mpr ⟨m1, hm1, rfl⟩, hg1⟩,
         ⟨_, List.mem_map.mpr ⟨m2, hm2, rfl⟩, hg2⟩, hgchain⟩
    obtain ⟨gg, hgg, hg1gg, hg2gg⟩ := hsc
    refine ⟨_, List.mem_map.mpr ⟨gg, hgg, rfl⟩, ?_, ?_⟩
    · exact List.mem_dedup.mpr (List.mem_flatten.mpr
        ⟨_, List.mem_map.mpr ⟨g1, hg1gg, rfl⟩,
          List.mem_filter.mpr ⟨hm1, by simpa using hg1⟩⟩)
    · exact List.mem_dedup.mpr (List.mem_flatten.mpr
        ⟨_, List.mem_map.mpr ⟨g2, hg2gg, rfl⟩,
          List.mem_filter.mpr ⟨hm2, by simpa using hg2⟩⟩)

/-- Characterization of the slow-path grouping via chains of module-level
merge requests. -/
theorem slow_sameGroup_iff {exprs : List CExpr}
    {owner : Param → Option ModuleId} {modules : List ModuleId}
    {gs : List (List ModuleId)}
    (hok : find_independent_groups_slow exprs owner modules = .ok gs)
    (m1 m2 : ModuleId) :
    sameGroup gs m1 m2 ↔
      (m1 ∈ modules.dedup ∧ m2 ∈ modules.dedup ∧
        Relation.ReflTransGen
          (linkedBy (moduleMerges exprs (litsOf exprs) owner modules.dedup))
          m1 m2) := by
  have hgs := find_independent_groups_slow_ok hok
  subst hgs
  rw [sameGroup_classes, EqC.sameClass_seeds_build_iff]
  constructor
  · rintro ⟨ha, hb, hr⟩
    refine ⟨?_, ?_, hr⟩
    · rcases ha with h | ⟨s, hs, hms⟩
      · exact h
      · exact moduleMerges_subset hs hms
    · rcases hb with h | ⟨s, hs, hms⟩
      · exact h
      · exact moduleMerges_subset hs hms
  · rintro ⟨ha, hb, hr⟩
    exact ⟨Or.inl ha, Or.inl hb, hr⟩

/-- **C5 (amended).** When a reusable solver state is present, the fast
grouping path computes the same partition as the constraint-walking slow
path, provided (i) every module in play has at least one pickable
parameter graph and (ii) the cached parameter-to-graph mapping links two
modules exactly when the slow path's module-level merge requests do. -/
theorem find_independent_groups_fast_eq_slow (st : ReusableState)
    (pp : ModuleId → List Param) (exprs : List CExpr)
    (owner : Param → Option ModuleId) (modules : List ModuleId)
    (gs : List (List ModuleId))
    (hok : find_independent_groups_slow exprs owner modules = .ok gs)
    (hG : ∀ m ∈ modules, m_graphs st pp m ≠ [])
    (hlink : ∀ m1 ∈ modules, ∀ m2 ∈ modules,
      ((∃ g ∈ m_graphs st pp m1, g ∈ m_graphs st pp m2) ↔
        linkedBy (moduleMerges exprs (litsOf exprs) owner modules.dedup)
          m1 m2)) :
    ∀ m1 m2, sameGroup (find_independent_groups_fast st pp modules) m1 m2 ↔
      sameGroup gs m1 m2 := by
  intro m1 m2
  have hG' : ∀ m ∈ modules.dedup, m_graphs st pp m ≠ [] :=
    fun m hm => hG m (List.mem_dedup.mp hm)
  rw [fast_sameGroup_iff st pp modules hG', slow_sameGroup_iff hok]
  have hfwd : ∀ x y, fastStep st pp modules.dedup x y →
      linkedBy (moduleMerges exprs (litsOf exprs) owner modules.dedup) x y := by
    intro x y hxy
    obtain ⟨hx, hy, hg⟩ := hxy
    exact (hlink x (List.mem_dedup.mp hx) y (List.mem_dedup.mp hy)).mp hg
  have hbwd : ∀ x y,
      linkedBy (moduleMerges exprs (litsOf exprs) owner modules.dedup) x y →
      fastStep st pp modules.dedup x y := by
    intro x y hxy
    have hx : x ∈ modules.dedup := by
      obtain ⟨s, hs, hxs, _⟩ := hxy
      exact moduleMerges_subset hs hxs
    have hy : y ∈ modules.dedup := by
      obtain ⟨s, hs, _, hys⟩ := hxy
      exact moduleMerges_subset hs hys
    exact ⟨hx, hy,
      (hlink x (List.mem_dedup.mp hx) y (List.mem_dedup.mp hy)).mpr hxy⟩
  constructor
  · rintro ⟨h1, h2, hr⟩
    exact ⟨h1, h2, rtg_mono_of
      (fun x y h => Relation.ReflTransGen.single (hfwd x y h)) hr⟩
  · rintro ⟨h1, h2, hr⟩
    exact ⟨h1, h2, rtg_mono_of
      (fun x y h => Relation.ReflTransGen.single (hbwd x y h)) hr⟩

/-- Fixture for the C5 counterexample: two unconstrained modules whose
(single) parameters land in the same cached graph. -/
def stC5 : ReusableState := ⟨fun p => p, fun _ => 0⟩

def ppC5 : ModuleId → List Param := fun m => [m]

/-- **C5, counterexample.** With a reusable state present whose cached
graphs merge the two parameters, the fast path groups modules 1 and 2
together, while the slow path (no constraints) keeps them separate: the
presence of the cached state changes the result, so the claim as stated is
false. -/
theorem C5_counterexample :
    find_independent_groups (some stC5) [] ownerC4 ppC5 [1, 2]
      = .ok [[1, 2]] ∧
    find_independent_groups none [] ownerC4 ppC5 [1, 2]
      = .ok [[1], [2]] ∧
    sameGroup [[1, 2]] 1 2 ∧ ¬ sameGroup [[1], [2]] 1 2 :=
  ⟨by rfl, by rfl, by decide, by decide⟩

/-- Reusable state matching the constraint connectivity of `exprsC4w`. -/
def stC5w : ReusableState := ⟨fun p => p, fun _ => 0⟩

/-- Witness instantiating `find_independent_groups_fast_eq_slow` on a
concrete coherent cache. -/
theorem C5_witness : sameGroup [[1, 2]] 1 2 := by
  have h := find_independent_groups_fast_eq_slow stC5w ppC5 exprsC4w ownerC4
    [1, 2] [[1, 2]] (by rfl) (by decide) (by decide)
  exact (h 1 2).mp (by decide)

/-! ## Pick tree and `update_pick_tree` -/

/-- `Tree[Module]`: a finite mapping from module to its nested pick tree,
represented as an association list preserving insertion order. -/
inductive PTree where
  | node : List (Nat × PTree) → PTree

def PTree.entries : PTree → List (Nat × PTree)
  | .node es => es

section UpdatePickTree

variable (picked : Nat → Bool)

mutual

/-- `update_pick_tree` (picker.py lines 196-208): an empty tree is returned
unchanged with flag `false`; otherwise entries whose module carries the
has-part-picked trait, or whose recursively updated subtree reports fully
resolved, are dropped; if everything was dropped the result is the empty
tree with flag `true`. -/
def update_pick_tree : PTree → PTree × Bool
  | .node es =>
    if es.isEmpty then (.node es, false)
    else
      let filtered := update_entries es
      if filtered.isEmpty then (.node filtered, true)
      else (.node filtered, false)

/-- The entry comprehension of `update_pick_tree` (lines 200-204): keep
`(k, updated subtree)` when `k` is unpicked and its updated subtree is not
fully resolved. -/
def update_entries : List (Nat × PTree) → List (Nat × PTree)
  | [] => []
  | (k, v) :: rest =>
    (if picked k then []
     else
       let sub := update_pick_tree v
       if sub.2 then [] else [(k, sub.1)]) ++ update_entries rest

end

end UpdatePickTree

mutual

/-- Every module key of the tree, at every depth. -/
def PTree.modules : PTree → List Nat
  | .node es => PTree.modulesL es

def PTree.modulesL : List (Nat × PTree) → List Nat
  | [] => []
  | (k, v) :: rest => k :: (PTree.modules v ++ PTree.modulesL rest)

end

theorem PTree.key_mem_modulesL {es : List (Nat × PTree)} {k : Nat} {v : PTree}
    (h : (k, v) ∈ es) : k ∈ PTree.modulesL es := by
  induction es with
  | nil => exact absurd h (List.not_mem_nil _)
  | cons e rest ih =>
    obtain ⟨k', v'⟩ := e
    rw [PTree.modulesL]
    rcases List.mem_cons.mp h with heq | hmem
    · rw [Prod.mk.injEq] at heq
      exact heq.1 ▸ List.mem_cons_self _ _
    · exact List.mem_cons_of_mem _ (List.mem_append.mpr (Or.inr (ih hmem)))

theorem update_pick_tree_no_picked_aux (picked : Nat → Bool) (n : Nat) :
    (∀ t : PTree, sizeOf t ≤ n → (∀ m ∈ t.modules, picked m = false) →
      update_pick_tree picked t = (t, false)) ∧
    (∀ es : List (Nat × PTree), sizeOf es ≤ n →
      (∀ m ∈ PTree.modulesL es, picked m = false) →
      update_entries picked es = es) := by
  induction n using Nat.strong_induction_on with
  | _ n ih =>
    constructor
    · intro t hsz hno
      obtain ⟨es⟩ := t
      rw [update_pick_tree]
      by_cases he : es.isEmpty
      · simp [he]
      · have hlt : sizeOf es < n := by
          have h1 : sizeOf (PTree.node es) = 1 + sizeOf es := by simp
          omega
        have hupd : update_entries picked es = es := by
          refine (ih (sizeOf es) hlt).2 es le_rfl ?_
          intro m hm
          exact hno m (by rw [PTree.modules]; exact hm)
        simp [he, hupd]
    · intro es hsz hno
      rcases es with _ | ⟨⟨k, v⟩, rest⟩
      · rfl
      · have hv : sizeOf v < n := by
          have h1 : sizeOf ((k, v) :: rest) = 1 + (1 + sizeOf k + sizeOf v) + sizeOf rest := by
            simp
          omega
        have hrest : sizeOf rest < n := by
          have h1 : sizeOf ((k, v) :: rest) = 1 + (1 + sizeOf k + sizeOf v) + sizeOf rest := by
            simp
          omega
        have hk : picked k = false :=
          hno k (by rw [PTree.modulesL]; exact List.mem_cons_self _ _)
        have hvupd : update_pick_tree picked v = (v, false) := by
          refine (ih (sizeOf v) hv).1 v le_rfl ?_
          intro m hm
          refine hno m ?_
          rw [PTree.modulesL]
          exact List.mem_cons_of_mem _ (List.mem_append.mpr (Or.inl hm))
        have hrupd : update_entries picked rest = rest := by
          refine (ih (sizeOf rest) hrest).2 rest le_rfl ?_
          intro m hm
          refine hno m ?_
          rw [PTree.modulesL]
          exact List.mem_cons_of_mem _ (List.mem_append.mpr (Or.inr hm))
        rw [update_entries, hk, hvupd, hrupd]
        simp

theorem update_entries_all_picked (picked : Nat → Bool)
    (es : List (Nat × PTree)) (h : ∀ kv ∈ es, picked kv.1 = true) :
    update_entries picked es = [] := by
  induction es with
  | nil => rfl
  | cons e rest ih =>
    obtain ⟨k, v⟩ := e
    rw [update_entries, h (k, v) (List.mem_cons_self _ _)]
    simpa using ih (fun kv hkv => h kv (List.mem_cons_of_mem _ hkv))

/-- **C6 (amended).** Pruning a tree none of whose modules carries the
has-part tag returns the tree unchanged with flag `false`; pruning a
*nonempty* tree all of whose modules carry the tag returns the empty tree
with flag `true` (the empty tree instead reports `false`, see the
counterexample). -/
theorem update_pick_tree_endpoints (picked : Nat → Bool) (t : PTree) :
    ((∀ m ∈ t.modules, picked m = false) →
      update_pick_tree picked t = (t, false)) ∧
    (t.entries ≠ [] → (∀ m ∈ t.modules, picked m = true) →
      update_pick_tree picked t = (.node [], true)) := by
  constructor
  · intro h
    exact (update_pick_tree_no_picked_aux picked (sizeOf t)).1 t le_rfl h
  · intro hne hall
    obtain ⟨es⟩ := t
    rw [update_pick_tree]
    have hees : ¬ es.isEmpty = true := by
      cases es with
      | nil => exact absurd rfl hne
      | cons e rest => simp
    have hupd : update_entries picked es = [] := by
      refine update_entries_all_picked picked es ?_
      intro kv hkv
      refine hall kv.1 ?_
      rw [PTree.modules]
      obtain ⟨k, v⟩ := kv
      exact PTree.key_mem_modulesL hkv
    simp [hees, hupd]

/-- **C6, counterexample.** The empty tree vacuously satisfies "every
module carries the has-part tag", yet `update_pick_tree` returns it with
the fully-resolved flag `false`, not `true`. -/
theorem C6_counterexample :
    (PTree.node []).modules = [] ∧
    update_pick_tree (fun _ => true) (.node []) = (.node [], false) ∧
    update_pick_tree (fun _ => true) (.node []) ≠ (.node [], true) := by
  refine ⟨rfl, rfl, ?_⟩
  intro h
  have h2 : (false : Bool) = true := congrArg Prod.snd h
  exact Bool.noConfusion h2

/-- Witness instantiating `update_pick_tree_endpoints` on a two-entry tree
with nothing picked and a one-entry tree with everything picked. -/
theorem C6_witness :
    update_pick_tree (fun m => m == 9) (.node [(1, .node []), (2, .node [])])
      = (.node [(1, .node []), (2, .node [])], false) ∧
    update_pick_tree (fun _ => true) (.node [(1, .node [])])
      = (.node [], true) := by
  refine ⟨?_, ?_⟩
  · exact (update_pick_tree_endpoints (fun m => m == 9)
      (.node [(1, .node []), (2, .node [])])).1 (by decide)
  · exact (update_pick_tree_endpoints (fun _ => true)
      (.node [(1, .node [])])).2 (List.cons_ne_nil _ _) (by decide)

/-- **C10.** `update_pick_tree` applied to the empty tree returns the empty
tree with the fully-resolved flag `false` (picker.py lines 197-198). -/
theorem update_pick_tree_empty (picked : Nat → Bool) :
    update_pick_tree picked (.node []) = (.node [], false) := rfl

/-! ## Error taxonomy: `PickErrorChildren.get_all_children` -/

/-- A pick error value: a leaf error (`PickError`, `PickErrorNotImplemented`,
`PickVerificationError`, ... identified by a payload) or a
`PickErrorChildren` aggregate wrapping a module → error mapping. -/
inductive PickErrTree where
  | leaf : Nat → PickErrTree
  | childrenErr : List (Nat × PickErrTree) → PickErrTree

def PickErrTree.isAggregate : PickErrTree → Bool
  | .leaf _ => false
  | .childrenErr _ => true

mutual

/-- The recursive inlining of the nested aggregates of a children mapping
(second comprehension of `get_all_children`, picker.py lines 108-113):
each aggregate value contributes its own flattened view in place. -/
def aggChildren : List (Nat × PickErrTree) → List (Nat × PickErrTree)
  | [] => []
  | (_, e) :: rest => aggOne e ++ aggChildren rest

/-- Contribution of a single child value to the flattening: a leaf error
contributes nothing here (it lives in the first comprehension), an
aggregate contributes its recursive `get_all_children`. -/
def aggOne : PickErrTree → List (Nat × PickErrTree)
  | .leaf _ => []
  | .childrenErr c2 => c2.filter (fun p => !p.2.isAggregate) ++ aggChildren c2

end

/-- `PickErrorChildren.get_all_children` (picker.py lines 103-113) on a
children mapping: the direct non-aggregate entries, dict-merged (`|`) with
the recursively flattened nested aggregates; on key collision the
rightmost binding wins, which `dlookup` below reflects. -/
def get_all_children (c : List (Nat × PickErrTree)) :
    List (Nat × PickErrTree) :=
  c.filter (fun p => !p.2.isAggregate) ++ aggChildren c

/-- Lookup in an association list under "last binding wins", matching how
the Python dict comprehensions and the `|`-merge resolve duplicate keys. -/
def dlookup (l : List (Nat × PickErrTree)) (m : Nat) : Option PickErrTree :=
  (l.reverse.find? (fun p => p.1 == m)).map Prod.snd

mutual

/-- A module bound to a leaf (non-aggregate) error at some depth of the
nested children mapping: the "originally implicated" modules. -/
def implicated : List (Nat × PickErrTree) → Nat → Bool
  | [], _ => false
  | (k, e) :: rest, m => implicatedOne k e m || implicated rest m

/-- One binding's contribution to `implicated`. -/
def implicatedOne : Nat → PickErrTree → Nat → Bool
  | k, .leaf _, m => k == m
  | _, .childrenErr c2, m => implicated c2 m

end

theorem gac_cons_leaf (k d : Nat) (rest : List (Nat × PickErrTree)) :
    get_all_children ((k, .leaf d) :: rest) =
      (k, .leaf d) :: get_all_children rest := rfl

theorem mem_gac_cons_agg {k : Nat} {c2 rest : List (Nat × PickErrTree)}
    {q : Nat × PickErrTree} :
    q ∈ get_all_children ((k, .childrenErr c2) :: rest) ↔
      (q ∈ get_all_children c2 ∨ q ∈ get_all_children rest) := by
  show q ∈ List.filter (fun p => !p.2.isAggregate) rest ++
      ((List.filter (fun p => !p.2.isAggregate) c2 ++ aggChildren c2) ++
        aggChildren rest) ↔ _
  simp only [get_all_children, List.mem_append]
  tauto

theorem aggChildren_no_aggregate_aux (n : Nat) :
    ∀ c : List (Nat × PickErrTree), sizeOf c ≤ n →
      ∀ p ∈ aggChildren c, p.2.isAggregate = false := by
  induction n using Nat.strong_induction_on with
  | _ n ih =>
    intro c hsz p hp
    rcases c with _ | ⟨⟨k, e⟩, rest⟩
    · rw [aggChildren] at hp
      exact absurd hp (List.not_mem_nil p)
    · have hszrest : sizeOf rest < n := by
        have h1 : sizeOf ((k, e) :: rest) =
            1 + (1 + sizeOf k + sizeOf e) + sizeOf rest := by simp
        omega
      rw [aggChildren] at hp
      rcases List.mem_append.mp hp with h | h
      · rcases e with d | c2
        · rw [aggOne] at h
          exact absurd h (List.not_mem_nil p)
        · rw [aggOne] at h
          rcases List.mem_append.mp h with h2 | h2
          · simpa using (List.mem_filter.mp h2).2
          · have hszc2 : sizeOf c2 < n := by
              have h1 : sizeOf ((k, PickErrTree.childrenErr c2) :: rest) =
                  1 + (1 + sizeOf k + (1 + sizeOf c2)) + sizeOf rest := by simp
              omega
            exact ih (sizeOf c2) hszc2 c2 le_rfl p h2
      · exact ih (sizeOf rest) hszrest rest le_rfl p h

theorem get_all_children_no_aggregate (c : List (Nat × PickErrTree)) :
    ∀ p ∈ get_all_children c, p.2.isAggregate = false := by
  intro p hp
  rcases List.mem_append.mp hp with h | h
  · simpa using (List.mem_filter.mp h).2
  · exact aggChildren_no_aggregate_aux (sizeOf c) c le_rfl p h

theorem get_all_children_hasKey_aux (n : Nat) :
    ∀ c : List (Nat × PickErrTree), sizeOf c ≤ n → ∀ m : Nat,
      ((∃ e, (m, e) ∈ get_all_children c) ↔ implicated c m = true) := by
  induction n using Nat.strong_induction_on with
  | _ n ih =>
    intro c hsz m
    rcases c with _ | ⟨⟨k, er⟩, rest⟩
    · simp [get_all_children, aggChildren, implicated]
    · have hszrest : sizeOf rest < n := by
        have h1 : sizeOf ((k, er) :: rest) =
            1 + (1 + sizeOf k + sizeOf er) + sizeOf rest := by simp
        omega
      have ihrest := ih (sizeOf rest) hszrest rest le_rfl m
      rcases er with d | c2
      · show _ ↔ (k == m || implicated rest m) = true
        constructor
        · rintro ⟨e, he⟩
          rw [gac_cons_leaf] at he
          rcases List.mem_cons.mp he with heq | hmem
          · have h1 : m = k := by
              have := congrArg Prod.fst heq
              simpa using this
            subst h1
            simp
          · have h2 := ihrest.mp ⟨e, hmem⟩
            simp [h2]
        · intro h
          rcases Bool.or_eq_true_iff.mp h with h2 | h2
          · have hk : k = m := by simpa using h2
            exact ⟨.leaf d, by rw [gac_cons_leaf, hk]; exact List.mem_cons_self _ _⟩
          · obtain ⟨e, he⟩ := ihrest.mpr h2
            exact ⟨e, by rw [gac_cons_leaf]; exact List.mem_cons_of_mem _ he⟩
      · have hszc2 : sizeOf c2 < n := by
          have h1 : sizeOf ((k, PickErrTree.childrenErr c2) :: rest) =
              1 + (1 + sizeOf k + (1 + sizeOf c2)) + sizeOf rest := by simp
          omega
        have ihc2 := ih (sizeOf c2) hszc2 c2 le_rfl m
        show _ ↔ (implicated c2 m || implicated rest m) = true
        constructor
        · rintro ⟨e, he⟩
          rcases mem_gac_cons_agg.mp he with h2 | h2
          · simp [ihc2.mp ⟨e, h2⟩]
          · simp [ihrest.mp ⟨e, h2⟩]
        · intro h
          rcases Bool.or_eq_true_iff.mp h with h2 | h2
          · obtain ⟨e, he⟩ := ihc2.mpr h2
            exact ⟨e, mem_gac_cons_agg.mpr (Or.inl he)⟩
          · obtain ⟨e, he⟩ := ihrest.mpr h2
            exact ⟨e, mem_gac_cons_agg.mpr (Or.inr he)⟩

theorem get_all_children_hasKey (c : List (Nat × PickErrTree)) (m : Nat) :
    (∃ e, (m, e) ∈ get_all_children c) ↔ implicated c m = true :=
  get_all_children_hasKey_aux (sizeOf c) c le_rfl m

theorem dlookup_mem {l : List (Nat × PickErrTree)} {m : Nat} {e : PickErrTree}
    (h : dlookup l m = some e) : (m, e) ∈ l := by
  unfold dlookup at h
  cases hf : l.reverse.find? (fun p => p.1 == m) with
  | none =>
    rw [hf] at h
    exact absurd h (by simp)
  | some p =>
    rw [hf] at h
    obtain ⟨k, e'⟩ := p
    have hp := List.find?_some hf
    have hmem := List.mem_of_find?_eq_some hf
    have hk : k = m := by simpa using hp
    have he : e' = e := by simpa using h
    subst hk
    subst he
    exact List.mem_reverse.mp hmem

theorem dlookup_isSome_iff (l : List (Nat × PickErrTree)) (m : Nat) :
    (dlookup l m).isSome = true ↔ ∃ e, (m, e) ∈ l := by
  unfold dlookup
  cases hf : l.reverse.find? (fun p => p.1 == m) with
  | none =>
    simp only [hf, Option.map_none', Option.isSome_none, Bool.false_eq_true,
      false_iff]
    rintro ⟨e, he⟩
    have := List.find?_eq_none.mp hf (m, e) (List.mem_reverse.mpr he)
    simp at this
  | some p =>
    simp only [hf, Option.map_some', Option.isSome_some, true_iff]
    obtain ⟨k, e'⟩ := p
    have hp := List.find?_some hf
    have hmem := List.mem_of_find?_eq_some hf
    have hk : k = m := by simpa using hp
    subst hk
    exact ⟨e', List.mem_reverse.mp hmem⟩

/-- **C7.** The flattened view of an aggregated children error maps modules
only to non-aggregate (leaf) errors, and its keys are exactly the modules
bound to a leaf error anywhere in the nesting (the originally implicated
modules); being a mapping, each such module is represented exactly once. -/
theorem get_all_children_flat (c : List (Nat × PickErrTree)) (m : Nat) :
    (∀ e, dlookup (get_all_children c) m = some e → e.isAggregate = false) ∧
    ((dlookup (get_all_children c) m).isSome = true ↔ implicated c m = true) := by
  constructor
  · intro e he
    exact get_all_children_no_aggregate c (m, e) (dlookup_mem he)
  · rw [dlookup_isSome_iff]
    exact get_all_children_hasKey c m

/-- Fixture for the C7 witness: a doubly nested aggregate. -/
def exC7 : List (Nat × PickErrTree) :=
  [(1, .leaf 10),
   (2, .childrenErr [(3, .leaf 11), (4, .childrenErr [(5, .leaf 12)])])]

/-- Witness instantiating `get_all_children_flat` on the nested fixture:
the deep module 5 is present and bound to a leaf; the value found for it is
not an aggregate. -/
theorem C7_witness :
    PickErrTree.isAggregate (.leaf 12) = false ∧
    (dlookup (get_all_children exC7) 5).isSome = true := by
  refine ⟨(get_all_children_flat exC7 5).1 (.leaf 12) (by rfl), ?_⟩
  exact (get_all_children_flat exC7 5).2.mpr (by rfl)

/-! ## The resolution driver `pick_topologically` -/

/-- A catalog part (supplier and part number folded into one payload). -/
structure PartT where
  partno : Nat
deriving Repr, DecidableEq

/-- Failure kinds of `check_and_attach_candidates`: solver `Contradiction`,
`NotCompatibleException`, `NotDeducibleException` (lines 430, 436). -/
inductive BatchFail where
  | contradiction : BatchFail
  | notCompatible : BatchFail
  | notDeducible : BatchFail
deriving Repr, DecidableEq

/-- The pick-error values the driver constructs: a plain `PickError` or the
verification-specific `PickVerificationError` subtype, each carrying its
module tuple (the message strings are irrelevant to the claims and
dropped). -/
inductive PickErrorE where
  | pickError : List Nat → PickErrorE
  | pickVerificationError : List Nat → PickErrorE
deriving Repr, DecidableEq

/-- Failure of a driver run: a raised pick error, or a solver
`Contradiction` escaping unwrapped. -/
inductive RunFail where
  | pickErr : PickErrorE → RunFail
  | rawContradiction : RunFail
deriving Repr, DecidableEq

/-- The solver/catalog collaborators (outside the verified sources),
threaded through an abstract solver state `S`: `find_modules` models
`_find_modules` on the explicit modules (the source asserts exactly one
part per returned module; we model the post-assert outcome);
`update_superset_cache` models `Solver.update_superset_cache`
(`.error` = `Contradiction`); `get_candidates` models
`picker_lib.get_candidates` keyed by the top-level tree modules
(`.error` = `Contradiction`); `check_and_attach` models
`check_and_attach_candidates` with relaxed deducibility; `attach_single`
models the solver-state effect of `attach_single_no_check`. -/
structure Oracles (S : Type) where
  find_modules : S → List Nat → List (Nat × PartT)
  update_superset_cache : S → List Nat → Except Unit S
  get_candidates : S → List Nat → Except Unit (List (Nat × List PartT))
  check_and_attach : S → List (Nat × PartT) → Except BatchFail S
  attach_single : S → Nat → PartT → S

/-- Mutable run state: the solver state plus the modules carrying the
has-part-picked trait (attachment appends). -/
structure RunState (S : Type) where
  solver : S
  picked : List Nat
deriving Repr, DecidableEq

/-- The has-part-picked predicate induced by the run state. -/
def pickedOf {S : Type} (st : RunState S) : Nat → Bool :=
  fun m => st.picked.contains m

/-- `attach_single_no_check`: record the part on the module (which gains
the has-part-picked trait) and update the solver state. -/
def attachOne {S : Type} (o : Oracles S) (st : RunState S)
    (mp : Nat × PartT) : RunState S :=
  ⟨o.attach_single st.solver mp.1 mp.2, st.picked ++ [mp.1]⟩

/-- Top-level module keys of a pick tree (`tree.keys()`). -/
def treeKeys (t : PTree) : List Nat := t.entries.map Prod.fst

/-- Dict lookup in a candidates mapping. -/
def candLookup (cands : List (Nat × List PartT)) (m : Nat) :
    Option (List PartT) :=
  (cands.find? (fun p => p.1 == m)).map Prod.snd

/-- Failures escaping `_get_candidates`: a `PickError` it raised itself, or
a `Contradiction` from the candidate enumeration it does not catch. -/
inductive CandFail where
  | wrapped : PickErrorE → CandFail
  | contradiction : CandFail
deriving Repr, DecidableEq

/-- `_get_candidates` (picker.py lines 377-393): refresh the superset cache
over the tree's top-level modules (a `Contradiction` here is re-raised as a
`PickError` naming exactly those modules), then enumerate candidates (a
`Contradiction` there escapes unwrapped). -/
def getCandidatesW {S : Type} (o : Oracles S) (s : S) (keys : List Nat) :
    Except CandFail (S × List (Nat × List PartT)) :=
  match o.update_superset_cache s keys with
  | .error _ => .error (.wrapped (.pickError keys))
  | .ok s2 =>
    match o.get_candidates s2 keys with
    | .error _ => .error .contradiction
    | .ok cs => .ok (s2, cs)

/-- `_get_single_candidate` (lines 395-397): candidates for the given
modules, then `parts[m][0]` for each.  (A module with a missing or empty
candidate list raises an uncaught KeyError/IndexError in the source; such
entries are modelled as dropped and are never exercised by the claims.) -/
def getSingleCandidate {S : Type} (o : Oracles S) (s : S) (mods : List Nat) :
    Except CandFail (S × List (Nat × PartT)) :=
  match getCandidatesW o s mods with
  | .error e => .error e
  | .ok (s2, cands) =>
    .ok (s2, mods.filterMap (fun m =>
      ((candLookup cands m).bind List.head?).map (fun p => (m, p))))

/-- The single-candidate modules paired with their unique candidate
(lines 419-423). -/
def singlePartModules (cands : List (Nat × List PartT)) :
    List (Nat × PartT) :=
  cands.filterMap (fun mc =>
    match mc.2 with
    | [p] => some (mc.1, p)
    | _ => none)

/-- The singleton heuristic (picker.py lines 417-444): batch-attach all
single-candidate modules; a `Contradiction`, `NotCompatibleException` or
`NotDeducibleException` is re-raised as a `PickError` naming every module
of the batch; on success the tree is pruned and candidates refreshed. -/
def singletonPass {S : Type} (o : Oracles S) (st : RunState S) (tree : PTree)
    (cands : List (Nat × List PartT)) :
    Except RunFail (RunState S × PTree × List (Nat × List PartT)) :=
  let singles := singlePartModules cands
  if singles.isEmpty then .ok (st, tree, cands)
  else
    match o.check_and_attach st.solver singles with
    | .error _ => .error (.pickErr (.pickError (singles.map Prod.fst)))
    | .ok s2 =>
      let st2 : RunState S := ⟨s2, st.picked ++ singles.map Prod.fst⟩
      let tree2 := (update_pick_tree (pickedOf st2) tree).1
      match getCandidatesW o st2.solver (treeKeys tree2) with
      | .error (.wrapped e) => .error (.pickErr e)
      | .error .contradiction => .error .rawContradiction
      | .ok (s3, cands2) => .ok (⟨s3, st2.picked⟩, tree2, cands2)

/-- Static inputs of the driver: the constraint system read by
`find_independent_groups` and the explicit-pickability traits. -/
structure PickInputs where
  stateOpt : Option ReusableState
  exprs : List CExpr
  owner : Param → Option ModuleId
  pick_params : ModuleId → List Param
  is_explicit : Nat → Bool

/-- The group selection of one slow-pass iteration (lines 453-458): the
independent groups of the remaining candidate modules, restricted to the
singleton groups when any exist. -/
def selectedGroups (inp : PickInputs) (mods : List Nat) :
    Except Unit (List (List Nat)) :=
  match find_independent_groups inp.stateOpt inp.exprs inp.owner
      inp.pick_params mods with
  | .error e => .error e
  | .ok groups =>
    let singleton_groups := groups.filter (fun g => g.length == 1)
    .ok (if singleton_groups.isEmpty then groups else singleton_groups)

/-- `next(iter(g))` of each selected group: the group heads (line 460). -/
def groupHeads (inp : PickInputs) (mods : List Nat) : Except Unit (List Nat) :=
  match selectedGroups inp mods with
  | .error e => .error e
  | .ok gs => .ok (gs.filterMap List.head?)

/-- One iteration of the slow-pass while loop (picker.py lines 452-477):
partition the remaining candidate modules, fetch the group heads' first
candidates, attach them without check, prune the tree, and drop exactly
the group heads from the candidate mapping.  A `Contradiction` escaping
the candidate enumeration is re-raised as a `PickError` carrying *no*
modules (lines 464-470: `raise PickError(..., *[])`); a `Contradiction`
inside the superset-cache refresh arrives already wrapped by
`_get_candidates` as a `PickError` naming the group heads.  A
`Contradiction` raised by `find_independent_groups` itself (line 453) is
outside the `try` and escapes unwrapped. -/
def slowPassStep {S : Type} (o : Oracles S) (inp : PickInputs)
    (st : RunState S) (tree : PTree) (cands : List (Nat × List PartT)) :
    Except RunFail (RunState S × PTree × List (Nat × List PartT)) :=
  match groupHeads inp (cands.map Prod.fst) with
  | .error _ => .error .rawContradiction
  | .ok heads =>
    match getSingleCandidate o st.solver heads with
    | .error (.wrapped e) => .error (.pickErr e)
    | .error .contradiction => .error (.pickErr (.pickError []))
    | .ok (s2, parts) =>
      let st2 := parts.foldl (attachOne o) (⟨s2, st.picked⟩ : RunState S)
      let tree2 := (update_pick_tree (pickedOf st2) tree).1
      let cands2 := cands.filter (fun mc => !heads.contains mc.1)
      .ok (st2, tree2, cands2)

/-- The slow-pass `while candidates:` loop (line 452).  The source loop
carries no fuel; the fuel below is an upper bound on the iterations taken
(the C8 termination theorem shows `cands.length` iterations always suffice
on the slow grouping path) and on exhaustion the residual state is
returned unchanged. -/
def slowPassLoop {S : Type} (o : Oracles S) (inp : PickInputs) :
    Nat → RunState S → PTree → List (Nat × List PartT) →
      Except RunFail (RunState S × PTree × List (Nat × List PartT))
  | 0, st, tree, cands => .ok (st, tree, cands)
  | fuel + 1, st, tree, cands =>
    if cands.isEmpty then .ok (st, tree, cands)
    else
      match slowPassStep o inp st tree cands with
      | .error e => .error e
      | .ok (st2, tree2, cands2) => slowPassLoop o inp fuel st2 tree2 cands2

/-- The explicit pass (picker.py lines 355-367): resolve modules pickable
by explicit part number / supplier id by direct catalog lookup and attach
without check; the tree is pruned only when something was found. -/
def explicitPass {S : Type} (o : Oracles S) (inp : PickInputs)
    (st : RunState S) (tree : PTree) : RunState S × PTree :=
  let explicit_modules := (treeKeys tree).filter inp.is_explicit
  let parts := o.find_modules st.solver explicit_modules
  let st1 := parts.foldl (attachOne o) st
  (st1, if parts.isEmpty then tree
    else (update_pick_tree (pickedOf st1) tree).1)

/-- `tree_backup` (picker.py line 369): the top-level module set of the
tree as it stands right after the explicit pass. -/
def tree_backup {S : Type} (o : Oracles S) (inp : PickInputs)
    (st : RunState S) (tree : PTree) : List Nat :=
  treeKeys (explicitPass o inp st tree).2

/-- `pick_topologically` (picker.py lines 341-489): explicit pass,
candidate refresh, singleton heuristic, grouped slow pass, and final
verification via `update_superset_cache` over `tree_backup`; a
`Contradiction` there is re-raised as `PickVerificationError` naming
exactly the backup modules (lines 484-489). -/
def pick_topologically {S : Type} (o : Oracles S) (inp : PickInputs)
    (st0 : RunState S) (tree0 : PTree) : Except RunFail (RunState S) :=
  let ep := explicitPass o inp st0 tree0
  let backup := treeKeys ep.2
  match getCandidatesW o ep.1.solver (treeKeys ep.2) with
  | .error (.wrapped e) => .error (.pickErr e)
  | .error .contradiction => .error .rawContradiction
  | .ok (s2, cands) =>
    match singletonPass o ⟨s2, ep.1.picked⟩ ep.2 cands with
    | .error e => .error e
    | .ok (st3, tree3, cands3) =>
      match slowPassLoop o inp (cands3.length + 1) st3 tree3 cands3 with
      | .error e => .error e
      | .ok (st4, _, _) =>
        match o.update_superset_cache st4.solver backup with
        | .error _ => .error (.pickErr (.pickVerificationError backup))
        | .ok s5 => .ok ⟨s5, st4.picked⟩

def PickErrorE.isVerification : PickErrorE → Bool
  | .pickError _ => false
  | .pickVerificationError _ => true

theorem getCandidatesW_wrapped_shape {S : Type} {o : Oracles S} {s : S}
    {keys : List Nat} {e : PickErrorE}
    (h : getCandidatesW o s keys = .error (.wrapped e)) :
    e = .pickError keys := by
  unfold getCandidatesW at h
  split at h
  · simp only [Except.error.injEq, CandFail.wrapped.injEq] at h
    exact h.symm
  · split at h
    · simp at h
    · simp at h

theorem singletonPass_err_shape {S : Type} {o : Oracles S} {st : RunState S}
    {tree : PTree} {cands : List (Nat × List PartT)} {e : PickErrorE}
    (h : singletonPass o st tree cands = .error (.pickErr e)) :
    ∃ ms, e = .pickError ms := by
  simp only [singletonPass] at h
  split at h
  · simp at h
  · split at h
    · simp only [Except.error.injEq, RunFail.pickErr.injEq] at h
      exact ⟨_, h.symm⟩
    · split at h
      · rename_i s3 e' heq
        simp only [Except.error.injEq, RunFail.pickErr.injEq] at h
        obtain rfl := h
        exact ⟨_, getCandidatesW_wrapped_shape heq⟩
      · simp at h
      · simp at h

theorem slowPassStep_err_shape {S : Type} {o : Oracles S} {inp : PickInputs}
    {st : RunState S} {tree : PTree} {cands : List (Nat × List PartT)}
    {e : PickErrorE}
    (h : slowPassStep o inp st tree cands = .error (.pickErr e)) :
    ∃ ms, e = .pickError ms := by
  unfold slowPassStep at h
  split at h
  · simp at h
  · split at h
    · rename_i heads hheads e' heq
      unfold getSingleCandidate at heq
      simp only [Except.error.injEq, RunFail.pickErr.injEq] at h
      obtain rfl := h
      split at heq
      · rename_i e'' heq2
        simp only [Except.error.injEq] at heq
        rw [heq] at heq2
        exact ⟨_, getCandidatesW_wrapped_shape heq2⟩
      · simp at heq
    · simp only [Except.error.injEq, RunFail.pickErr.injEq] at h
      exact ⟨_, h.symm⟩
    · simp at h

theorem slowPassLoop_err_shape {S : Type} {o : Oracles S} {inp : PickInputs}
    {fuel : Nat} :
    ∀ {st : RunState S} {tree : PTree} {cands : List (Nat × List PartT)}
      {e : PickErrorE},
      slowPassLoop o inp fuel st tree cands = .error (.pickErr e) →
      ∃ ms, e = .pickError ms := by
  induction fuel with
  | zero =>
    intro st tree cands e h
    simp [slowPassLoop] at h
  | succ fuel ih =>
    intro st tree cands e h
    rw [slowPassLoop] at h
    split at h
    · simp at h
    · split at h
      · rename_i e' heq
        simp only [Except.error.injEq] at h
        rw [h] at heq
        exact slowPassStep_err_shape heq
      · exact ih h

/-- **C2 (amended).** A `PickVerificationError` arises only at the final
verification stage and names exactly the `tree_backup` modules — the
top-level module set captured right after the explicit pass (equal to the
set that entered the run only when no explicit part was attached), not the
tree further shrunk by the singleton and slow passes — and it is a
constructor distinct from the mid-run `PickError`. -/
theorem pick_topologically_verification_shape {S : Type} (o : Oracles S)
    (inp : PickInputs) (st0 : RunState S) (tree0 : PTree) (ms : List Nat)
    (h : pick_topologically o inp st0 tree0 =
      .error (.pickErr (.pickVerificationError ms))) :
    ms = tree_backup o inp st0 tree0 ∧
    ∀ ns : List Nat,
      PickErrorE.pickVerificationError ms ≠ PickErrorE.pickError ns := by
  refine ⟨?_, fun ns hne => PickErrorE.noConfusion hne⟩
  simp only [pick_topologically] at h
  split at h
  · rename_i e' heq
    simp only [Except.error.injEq, RunFail.pickErr.injEq] at h
    have hshape := getCandidatesW_wrapped_shape heq
    rw [h] at hshape
    exact absurd hshape (fun hx => PickErrorE.noConfusion hx)
  · simp at h
  · split at h
    · rename_i e' heq
      simp only [Except.error.injEq] at h
      rw [h] at heq
      obtain ⟨ms', hms'⟩ := singletonPass_err_shape heq
      exact absurd hms' (fun hx => PickErrorE.noConfusion hx)
    · split at h
      · rename_i e' heq
        simp only [Except.error.injEq] at h
        rw [h] at heq
        obtain ⟨ms', hms'⟩ := slowPassLoop_err_shape heq
        exact absurd hms' (fun hx => PickErrorE.noConfusion hx)
      · split at h
        · simp only [Except.error.injEq, RunFail.pickErr.injEq,
            PickErrorE.pickVerificationError.injEq] at h
          exact h.symm
        · simp at h

/-- Oracle fixture for the C2 counterexample, over solver state `Nat`
counting attachments: the explicit modules get a part from the catalog,
every queried module has exactly one candidate, and the superset-cache
refresh contradicts exactly when both modules are attached and the
refreshed key set is nonempty — i.e. at final verification. -/
def oC2 : Oracles Nat :=
  ⟨fun _ mods => mods.map (fun m => (m, ⟨100⟩)),
   fun s keys => if 2 ≤ s ∧ keys ≠ [] then .error () else .ok s,
   fun _ keys => .ok (keys.map (fun m => (m, [⟨7⟩]))),
   fun s batch => .ok (s + batch.length),
   fun s _ _ => s + 1⟩

/-- Inputs for the C2 counterexample: module 1 is explicitly pickable. -/
def inpC2 : PickInputs :=
  ⟨none, [], fun _ => none, fun _ => [], fun m => m == 1⟩

def treeC2 : PTree := .node [(1, .node []), (2, .node [])]

/-- **C2, counterexample.** With explicit module 1 present, the final
verification runs over `[2]` — the top-level module set captured *after*
the explicit pass — and the `PickVerificationError` names `[2]`, not the
full set `[1, 2]` that entered the run. -/
theorem C2_counterexample :
    treeKeys treeC2 = [1, 2] ∧
    pick_topologically oC2 inpC2 ⟨0, []⟩ treeC2 =
      .error (.pickErr (.pickVerificationError [2])) ∧
    ([2] : List Nat) ≠ [1, 2] :=
  ⟨rfl, by rfl, by decide⟩

/-- Witness instantiating `pick_topologically_verification_shape` on the
concrete verification-failure run. -/
theorem C2_witness :
    ([2] : List Nat) = tree_backup oC2 inpC2 ⟨0, []⟩ treeC2 ∧
    PickErrorE.pickVerificationError [2] ≠ PickErrorE.pickError [2] := by
  have h := pick_topologically_verification_shape oC2 inpC2 ⟨0, []⟩ treeC2 [2]
    (by rfl)
  exact ⟨h.1, h.2 [2]⟩

/-- Oracle fixture for C3: the candidate enumeration raises a
`Contradiction` (while the superset refresh succeeds). -/
def oC3 : Oracles Nat :=
  ⟨fun _ _ => [],
   fun s _ => .ok s,
   fun _ _ => .error (),
   fun s _ => .ok s,
   fun s _ _ => s + 1⟩

def inpC3 : PickInputs :=
  ⟨none, [], fun _ => none, fun _ => [], fun _ => false⟩

/-- **C3.** Evaluation of the grouped slow pass at the failing input: the
group heads are the known modules 1 and 2, a `Contradiction` is raised
while fetching their candidates, and the resulting `PickError` carries the
*empty* module list (picker.py lines 464-470, `raise PickError(..., *[])`),
contradicting the claim that it names the affected modules. -/
theorem C3_slow_pass_contradiction_empty_modules :
    groupHeads inpC3 [1, 2] = .ok [1, 2] ∧
    slowPassStep oC3 inpC3 ⟨0, []⟩ (.node [(1, .node []), (2, .node [])])
        [(1, [⟨10⟩, ⟨11⟩]), (2, [⟨12⟩, ⟨13⟩])] =
      .error (.pickErr (.pickError [])) ∧
    ([] : List Nat) ≠ [1, 2] :=
  ⟨by rfl, by rfl, by decide⟩

theorem singletonPass_fail {S : Type} (o : Oracles S) (st : RunState S)
    (tree : PTree) (cands : List (Nat × List PartT)) (f : BatchFail)
    (hne : singlePartModules cands ≠ [])
    (hfail : o.check_and_attach st.solver (singlePartModules cands) =
      .error f) :
    singletonPass o st tree cands =
      .error (.pickErr (.pickError ((singlePartModules cands).map Prod.fst))) := by
  simp only [singletonPass]
  rw [if_neg (by simpa using hne), hfail]

/-- **C9.** When the batched attachment of the single-candidate modules
fails — with a `Contradiction`, an incompatibility or a non-deducibility
failure — `pick_topologically` aborts with a `PickError` whose module list
is exactly the singleton batch, so it contains every module of the
batch. -/
theorem singleton_batch_failure {S : Type} (o : Oracles S) (inp : PickInputs)
    (st0 : RunState S) (tree0 : PTree) (s2 : S)
    (cands : List (Nat × List PartT)) (f : BatchFail)
    (hcand : getCandidatesW o (explicitPass o inp st0 tree0).1.solver
      (treeKeys (explicitPass o inp st0 tree0).2) = .ok (s2, cands))
    (hne : singlePartModules cands ≠ [])
    (hfail : o.check_and_attach s2 (singlePartModules cands) = .error f) :
    pick_topologically o inp st0 tree0 =
      .error (.pickErr (.pickError ((singlePartModules cands).map Prod.fst))) ∧
    ∀ mp ∈ singlePartModules cands,
      mp.1 ∈ (singlePartModules cands).map Prod.fst := by
  refine ⟨?_, fun mp hmp => List.mem_map.mpr ⟨mp, hmp, rfl⟩⟩
  simp only [pick_topologically]
  rw [hcand]
  dsimp only
  rw [singletonPass_fail o ⟨s2, (explicitPass o inp st0 tree0).1.picked⟩
    (explicitPass o inp st0 tree0).2 cands f hne hfail]

/-- Oracle fixture for the C9 witness: the batched check-and-attach raises
a `Contradiction`. -/
def oC9 : Oracles Nat :=
  ⟨fun _ _ => [],
   fun s _ => .ok s,
   fun _ keys => .ok (keys.map (fun m => (m, [⟨5⟩]))),
   fun _ _ => .error .contradiction,
   fun s _ _ => s + 1⟩

def inpC9 : PickInputs :=
  ⟨none, [], fun _ => none, fun _ => [], fun _ => false⟩

def treeC9 : PTree := .node [(1, .node []), (2, .node [])]

/-- Witness instantiating `singleton_batch_failure` on a concrete failing
batch of two single-candidate modules. -/
theorem C9_witness :
    pick_topologically oC9 inpC9 ⟨0, []⟩ treeC9 =
      .error (.pickErr (.pickError [1, 2])) := by
  have h := singleton_batch_failure oC9 inpC9 ⟨0, []⟩ treeC9 0
    [(1, [⟨5⟩]), (2, [⟨5⟩])] .contradiction (by rfl) (by decide) (by rfl)
  exact h.1

/-- Oracle fixture for C1/C8: refresh and enumeration succeed and each
queried module reports one candidate. -/
def oC1 : Oracles Nat :=
  ⟨fun _ _ => [],
   fun s _ => .ok s,
   fun _ keys => .ok (keys.map (fun m => (m, [⟨20⟩]))),
   fun s batch => .ok (s + batch.length),
   fun s _ _ => s + 1⟩

/-- Inputs for C1: no reusable state; modules 1 and 2 are coupled by the
enforced equality of `exprsC4w`, so they form one two-module group. -/
def inpC1 : PickInputs :=
  ⟨none, exprsC4w, ownerC4, fun _ => [], fun _ => false⟩

/-- **C1 (amended).** One slow-pass iteration removes from the candidate
mapping exactly the selected groups' representatives (the group heads): a
module keeps its candidate entry after the iteration iff it had one before
and is not a group head — in particular a member of a selected multi-module
group that is not the representative remains. -/
theorem slowPassStep_removes_heads {S : Type} (o : Oracles S)
    (inp : PickInputs) (st : RunState S) (tree : PTree)
    (cands : List (Nat × List PartT)) (st2 : RunState S) (tree2 : PTree)
    (cands2 : List (Nat × List PartT)) (heads : List Nat)
    (hheads : groupHeads inp (cands.map Prod.fst) = .ok heads)
    (hok : slowPassStep o inp st tree cands = .ok (st2, tree2, cands2)) :
    ∀ m : Nat, (∃ cs, (m, cs) ∈ cands2) ↔
      ((∃ cs, (m, cs) ∈ cands) ∧ m ∉ heads) := by
  unfold slowPassStep at hok
  split at hok
  · simp at hok
  · rename_i heads' hheads'
    rw [hheads] at hheads'
    have hE : heads' = heads := (Except.ok.inj hheads').symm
    subst hE
    split at hok
    · simp at hok
    · simp at hok
    · simp only [Except.ok.injEq, Prod.mk.injEq] at hok
      obtain ⟨-, -, hc2⟩ := hok
      subst hc2
      intro m
      constructor
      · rintro ⟨cs, hcs⟩
        have h2 := List.mem_filter.mp hcs
        refine ⟨⟨cs, h2.1⟩, fun hm => ?_⟩
        have h3 := h2.2
        simp only [Bool.not_eq_true'] at h3
        exact absurd hm (by simpa using h3)
      · rintro ⟨⟨cs, hcs⟩, hm⟩
        refine ⟨cs, List.mem_filter.mpr ⟨hcs, ?_⟩⟩
        simp only [Bool.not_eq_true']
        simpa using hm

/-- **C1, counterexample.** Modules 1 and 2 form the single selected group;
after one slow-pass iteration only the representative 1 is dropped from
the candidate mapping — module 2, although a member of the selected group,
remains a candidate, so the claim that the entire group is removed is
false. -/
theorem C1_counterexample :
    selectedGroups inpC1 [1, 2] = .ok [[1, 2]] ∧
    slowPassStep oC1 inpC1 ⟨0, []⟩ (.node [(1, .node []), (2, .node [])])
        [(1, [⟨10⟩, ⟨11⟩]), (2, [⟨12⟩, ⟨13⟩])] =
      .ok (⟨1, [1]⟩, .node [(2, .node [])], [(2, [⟨12⟩, ⟨13⟩])]) ∧
    (2 ∈ [1, 2]) ∧
    ((2, [PartT.mk 12, PartT.mk 13]) ∈
      [((2 : Nat), [PartT.mk 12, PartT.mk 13])]) :=
  ⟨by rfl, by rfl, by decide, by decide⟩

/-- Witness instantiating `slowPassStep_removes_heads` on the concrete
two-module group: the non-representative 2 keeps its candidate entry. -/
theorem C1_witness :
    ∃ cs, ((2 : Nat), cs) ∈
      ([(2, [PartT.mk 12, PartT.mk 13])] : List (Nat × List PartT)) := by
  have h := slowPassStep_removes_heads oC1 inpC1 ⟨0, []⟩
    (.node [(1, .node []), (2, .node [])])
    [(1, [⟨10⟩, ⟨11⟩]), (2, [⟨12⟩, ⟨13⟩])] ⟨1, [1]⟩ (.node [(2, .node [])])
    [(2, [⟨12⟩, ⟨13⟩])] [1] (by rfl) (by rfl)
  exact (h 2).mpr ⟨⟨[⟨12⟩, ⟨13⟩], by decide⟩, by decide⟩

theorem length_filter_lt {β : Type} (l : List β) (p : β → Bool) (x : β)
    (hx : x ∈ l) (hpx : p x = false) : (l.filter p).length < l.length := by
  induction l with
  | nil => exact absurd hx (List.not_mem_nil x)
  | cons a l ih =>
    rcases List.mem_cons.mp hx with rfl | hmem
    · rw [List.filter_cons, hpx]
      exact Nat.lt_succ_of_le (List.length_filter_le p l)
    · rw [List.filter_cons]
      by_cases hpa : p a = true
      · rw [hpa]
        simpa using Nat.succ_lt_succ (ih hmem)
      · rw [Bool.eq_false_iff.mpr hpa]
        exact Nat.lt_succ_of_lt (ih hmem)

/-- Basic facts about the slow grouping result: classes are nonempty,
contained in the input modules and cover them. -/
theorem slow_groups_props {exprs : List CExpr}
    {owner : Param → Option ModuleId} {mods : List ModuleId}
    {gs : List (List ModuleId)}
    (hok : find_independent_groups_slow exprs owner mods = .ok gs) :
    (∀ g ∈ gs, g ≠ []) ∧ (∀ g ∈ gs, ∀ m ∈ g, m ∈ mods) ∧
    (∀ m ∈ mods, ∃ g ∈ gs, m ∈ g) := by
  have hgs := find_independent_groups_slow_ok hok
  subst hgs
  have hinv := EqC.build_inv (EqC.ofSeeds_inv mods.dedup)
    (moduleMerges exprs (litsOf exprs) owner mods.dedup)
  refine ⟨hinv.nonempty, ?_, ?_⟩
  · intro g hg m hm
    have hmem : (EqC.build (EqC.ofSeeds mods.dedup)
        (moduleMerges exprs (litsOf exprs) owner mods.dedup)).mem m :=
      ⟨g, hg, hm⟩
    rcases EqC.mem_build.mp hmem with h | ⟨s, hs, hms⟩
    · exact List.mem_dedup.mp ((EqC.mem_ofSeeds _ m).mp h)
    · exact List.mem_dedup.mp (moduleMerges_subset hs hms)
  · intro m hm
    exact EqC.mem_build.mpr
      (Or.inl ((EqC.mem_ofSeeds _ m).mpr (List.mem_dedup.mpr hm)))

/-- Basic facts about the fast grouping result: groups are contained in
the input modules, nonempty, and cover every module with at least one
graph. -/
theorem fast_groups_props (st : ReusableState) (pp : ModuleId → List Param)
    (mods : List ModuleId) :
    (∀ g ∈ find_independent_groups_fast st pp mods, ∀ m ∈ g, m ∈ mods) ∧
    (∀ g ∈ find_independent_groups_fast st pp mods, g ≠ []) ∧
    (∀ m ∈ mods, m_graphs st pp m ≠ [] →
      ∃ g ∈ find_independent_groups_fast st pp mods, m ∈ g) := by
  have hinv := EqC.build_inv (EqC.empty_inv (α := Nat))
    (mods.dedup.map (m_graphs st pp))
  refine ⟨?_, ?_, ?_⟩
  · intro g hg m hm
    obtain ⟨gg, hgg, rfl⟩ := List.mem_map.mp hg
    obtain ⟨l, hl, hml⟩ := List.mem_flatten.mp (List.mem_dedup.mp hm)
    obtain ⟨g', hg', rfl⟩ := List.mem_map.mp hl
    exact List.mem_dedup.mp (List.mem_filter.mp hml).1
  · intro g hg
    obtain ⟨gg, hgg, rfl⟩ := List.mem_map.mp hg
    obtain ⟨g', hg'⟩ := List.exists_mem_of_ne_nil gg (hinv.nonempty gg hgg)
    have hmem : (EqC.build (EqC.mk [])
        (mods.dedup.map (m_graphs st pp))).mem g' := ⟨gg, hgg, hg'⟩
    rcases EqC.mem_build.mp hmem with h | ⟨s, hs, hgs⟩
    · exact absurd h (EqC.not_mem_empty g')
    · obtain ⟨m', hm', rfl⟩ := List.mem_map.mp hs
      intro hnil
      have : m' ∈ ((gg.map (fun g => mods.dedup.filter
          (fun m => decide (g ∈ m_graphs st pp m)))).flatten).dedup := by
        refine List.mem_dedup.mpr (List.mem_flatten.mpr
          ⟨_, List.mem_map.mpr ⟨g', hg', rfl⟩, ?_⟩)
        exact List.mem_filter.mpr ⟨hm', by simpa using hgs⟩
      rw [hnil] at this
      exact absurd this (List.not_mem_nil m')
  · intro m hm hG
    obtain ⟨g, hg⟩ := List.exists_mem_of_ne_nil _ hG
    have hmem : (EqC.build (EqC.mk [])
        (mods.dedup.map (m_graphs st pp))).mem g :=
      EqC.mem_build.mpr (Or.inr ⟨_,
        List.mem_map.mpr ⟨m, List.mem_dedup.mpr hm, rfl⟩, hg⟩)
    obtain ⟨gg, hgg, hggm⟩ := hmem
    refine ⟨_, List.mem_map.mpr ⟨gg, hgg, rfl⟩, ?_⟩
    refine List.mem_dedup.mpr (List.mem_flatten.mpr
      ⟨_, List.mem_map.mpr ⟨g, hggm, rfl⟩, ?_⟩)
    exact List.mem_filter.mpr ⟨List.mem_dedup.mpr hm, by simpa using hg⟩

/-- Each slow-pass iteration on a nonempty candidate set selects at least
one group head that is itself a candidate module, provided groups are
computed on the constraint-walking path or every module in play has at
least one cached parameter graph. -/
theorem groupHeads_progress {inp : PickInputs} {mods : List Nat}
    {heads : List Nat} (hmods : mods ≠ [])
    (hside : inp.stateOpt = none ∨
      ∀ st', inp.stateOpt = some st' →
        ∀ m ∈ mods, m_graphs st' inp.pick_params m ≠ [])
    (hheads : groupHeads inp mods = .ok heads) :
    ∃ h ∈ heads, h ∈ mods := by
  unfold groupHeads at hheads
  split at hheads
  · simp at hheads
  · rename_i gs hsel
    obtain rfl : gs.filterMap List.head? = heads := Except.ok.inj hheads
    unfold selectedGroups at hsel
    split at hsel
    · simp at hsel
    · rename_i groups hgroups
      have hprops : (∀ g ∈ groups, g ≠ []) ∧
          (∀ g ∈ groups, ∀ m ∈ g, m ∈ mods) ∧
          (∀ m ∈ mods, ∃ g ∈ groups, m ∈ g) := by
        rcases hstate : inp.stateOpt with _ | st'
        · rw [hstate] at hgroups
          exact slow_groups_props hgroups
        · rw [hstate] at hgroups
          have hfast := fast_groups_props st' inp.pick_params mods
          have hg : find_independent_groups_fast st' inp.pick_params mods
              = groups := Except.ok.inj hgroups
          rcases hside with hnone | hsome
          · rw [hstate] at hnone
            exact absurd hnone (by simp)
          · refine ⟨?_, ?_, ?_⟩
            · intro g hgm
              exact hfast.2.1 g (hg ▸ hgm)
            · intro g hgm m hm
              exact hfast.1 g (hg ▸ hgm) m hm
            · intro m hm
              obtain ⟨g, hgmem, hmg⟩ :=
                hfast.2.2 m hm (hsome st' hstate m hm)
              exact ⟨g, hg ▸ hgmem, hmg⟩
      obtain ⟨hne, hsub, hcover⟩ := hprops
      have hsel2 : ∃ g, (g ∈ (if (groups.filter
          (fun g => g.length == 1)).isEmpty then groups
            else groups.filter (fun g => g.length == 1))) ∧ g ≠ [] ∧
          (∀ m ∈ g, m ∈ mods) := by
        by_cases hs : (groups.filter (fun g => g.length == 1)).isEmpty
        · obtain ⟨m, hm⟩ := List.exists_mem_of_ne_nil mods hmods
          obtain ⟨g, hgmem, hmg⟩ := hcover m hm
          rw [if_pos hs]
          exact ⟨g, hgmem, hne g hgmem, hsub g hgmem⟩
        · have hne2 : groups.filter (fun g => g.length == 1) ≠ [] := by
            intro hnil
            rw [hnil] at hs
            exact hs rfl
          obtain ⟨g, hgmem⟩ := List.exists_mem_of_ne_nil _ hne2
          have hgg := (List.mem_filter.mp hgmem).1
          rw [if_neg hs]
          exact ⟨g, hgmem, hne g hgg, hsub g hgg⟩
      obtain ⟨g, hgmem, hgne, hgsub⟩ := hsel2
      obtain ⟨h0, hh0⟩ := List.exists_mem_of_ne_nil g hgne
      have hhead : g.head? = some g.head! ∨ True := Or.inr trivial
      obtain ⟨hh, hheadeq⟩ : ∃ hh, g.head? = some hh := by
        cases g with
        | nil => exact absurd rfl hgne
        | cons a t => exact ⟨a, rfl⟩
      refine ⟨hh, ?_, ?_⟩
      · obtain rfl : gs = (if (groups.filter
            (fun g => g.length == 1)).isEmpty then groups
              else groups.filter (fun g => g.length == 1)) :=
          (Except.ok.inj hsel).symm
        exact List.mem_filterMap.mpr ⟨g, hgmem, hheadeq⟩
      · have : hh ∈ g := by
          cases g with
          | nil => exact absurd rfl hgne
          | cons a t =>
            obtain rfl : a = hh := Option.some.inj hheadeq
            exact List.mem_cons_self _ _
        exact hgsub hh this

/-- **C8.** The grouped slow pass makes progress and terminates: every
successful iteration on a nonempty candidate set strictly decreases the
number of candidate entries (at least the selected group heads are
removed, and at least one head is a candidate), and on an empty candidate
set the loop body is never entered — the loop returns its state unchanged
for any fuel. -/
theorem slow_pass_terminates {S : Type} (o : Oracles S) (inp : PickInputs) :
    (∀ (st : RunState S) (tree : PTree) (cands : List (Nat × List PartT))
        (st2 : RunState S) (tree2 : PTree)
        (cands2 : List (Nat × List PartT)),
      cands ≠ [] →
      (inp.stateOpt = none ∨
        ∀ st', inp.stateOpt = some st' →
          ∀ m ∈ cands.map Prod.fst, m_graphs st' inp.pick_params m ≠ []) →
      slowPassStep o inp st tree cands = .ok (st2, tree2, cands2) →
      cands2.length < cands.length) ∧
    (∀ (fuel : Nat) (st : RunState S) (tree : PTree),
      slowPassLoop o inp fuel st tree [] = .ok (st, tree, [])) := by
  constructor
  · intro st tree cands st2 tree2 cands2 hne hside hok
    unfold slowPassStep at hok
    split at hok
    · simp at hok
    · rename_i heads hheads
      have hmodsne : cands.map Prod.fst ≠ [] := by
        intro hnil
        exact hne (List.map_eq_nil.mp hnil)
      obtain ⟨h, hh, hmods⟩ := groupHeads_progress hmodsne hside hheads
      obtain ⟨⟨h', cs⟩, hmem, hfst⟩ := List.mem_map.mp hmods
      split at hok
      · simp at hok
      · simp at hok
      · simp only [Except.ok.injEq, Prod.mk.injEq] at hok
        obtain ⟨-, -, hc2⟩ := hok
        rw [← hc2]
        refine length_filter_lt cands _ (h', cs) hmem ?_
        simp only at hfst
        subst hfst
        simpa using hh
  · intro fuel st tree
    cases fuel with
    | zero => rfl
    | succ fuel => rw [slowPassLoop]; rfl

/-- Witness instantiating `slow_pass_terminates`: the concrete two-module
iteration of the C1 fixture shrinks the candidate list from two entries to
one, and the loop on an empty candidate list is a no-op. -/
theorem C8_witness :
    ([((2 : Nat), [PartT.mk 12, PartT.mk 13])] :
        List (Nat × List PartT)).length <
      ([(1, [PartT.mk 10, PartT.mk 11]), (2, [PartT.mk 12, PartT.mk 13])] :
        List (Nat × List PartT)).length ∧
    slowPassLoop oC1 inpC1 5 ⟨0, []⟩ (.node []) [] =
      .ok (⟨0, []⟩, .node [], []) := by
  have h := slow_pass_terminates oC1 inpC1
  refine ⟨?_, h.2 5 ⟨0, []⟩ (.node [])⟩
  exact h.1 ⟨0, []⟩ (.node [(1, .node []), (2, .node [])])
    [(1, [⟨10⟩, ⟨11⟩]), (2, [⟨12⟩, ⟨13⟩])] ⟨1, [1]⟩ (.node [(2, .node [])])
    [(2, [⟨12⟩, ⟨13⟩])] (by decide) (Or.inl rfl) (by rfl)
